import Mathlib

/-!
Verification development for the request-processing kernel of the CPPAIService
HTTP server: the incremental request parser (HttpContext::parseRequest and
HttpContext::processRequestLine) and the database connection pool
(DbConnectionPool::init / DbConnectionPool::getConnection and the Lease
release logic of the custom shared_ptr deleter).

The parser works on the connection's byte buffer, modelled as a List Char.
The muduo Buffer operations used by the source are modelled directly:
findCRLF is the first occurrence of the two-byte sequence CR LF, peek is the
list itself, retrieveUntil/retrieve are List.drop, readableBytes is
List.length.
-/

set_option maxRecDepth 8192

namespace Http

/-- Parser states of HttpContext (declared in HttpContext.h, mirrored from
their use in HttpContext::parseRequest): expecting the request line, the
headers, the body, or done. -/
inductive ParserState
  | kExpectRequestLine
  | kExpectHeaders
  | kExpectBody
  | kGotAll
deriving DecidableEq, Repr

/-- Modelled from the spec: the request methods recognized by
HttpRequest::setMethod (HttpRequest.h is not under src/); the spec data model
lists the method enum GET, POST, PUT, HEAD, DELETE, plus an invalid marker
for recognition failure. -/
inductive Method
  | kGet
  | kPost
  | kPut
  | kHead
  | kDelete
  | kInvalid
deriving DecidableEq, Repr

/-- Modelled from the spec: the Request data holder populated incrementally by
the parser (HttpRequest.h is not under src/): method, path (without query),
query parameters, protocol version, headers, body, content-length and the
receive timestamp.  The query-parameter mapping and the header mapping are
determined by the substrings the parser hands to setQueryParameters and
addHeader, so they are stored as those substrings (headers as a key/value
association list with overwrite-on-duplicate, per the spec tie-break policy;
whitespace around header values is not trimmed).  content-length is compared
by parseRequest against Buffer::readableBytes (a size_t) and is therefore a
Nat, with the C++ int-to-size_t conversion applied by setContentLength. -/
structure HttpRequest where
  method : Method := Method.kInvalid
  path : List Char := []
  queryParameters : List Char := []
  version : List Char := []
  headers : List (List Char × List Char) := []
  contentLength : Nat := 0
  body : List Char := []
  receiveTime : Nat := 0
deriving DecidableEq, Repr

/-- Modelled from the spec: the strings recognized by HttpRequest::setMethod. -/
def methodOfChars (s : List Char) : Method :=
  if s = ("GET").toList then Method.kGet
  else if s = ("POST").toList then Method.kPost
  else if s = ("PUT").toList then Method.kPut
  else if s = ("HEAD").toList then Method.kHead
  else if s = ("DELETE").toList then Method.kDelete
  else Method.kInvalid

/-- Modelled from the spec: HttpRequest::setMethod stores the recognized method
(kInvalid on recognition failure) and reports whether recognition succeeded. -/
def HttpRequest.setMethod (r : HttpRequest) (s : List Char) : HttpRequest × Bool :=
  ({ r with method := methodOfChars s }, methodOfChars s != Method.kInvalid)

/-- Modelled from the spec: HttpRequest::setPath. -/
def HttpRequest.setPath (r : HttpRequest) (s : List Char) : HttpRequest :=
  { r with path := s }

/-- Modelled from the spec: HttpRequest::setQueryParameters stores the query
substring (the characters between the question mark and the second space). -/
def HttpRequest.setQueryParameters (r : HttpRequest) (s : List Char) : HttpRequest :=
  { r with queryParameters := s }

/-- Modelled from the spec: HttpRequest::setVersion. -/
def HttpRequest.setVersion (r : HttpRequest) (s : List Char) : HttpRequest :=
  { r with version := s }

/-- Modelled from the spec: HttpRequest::setBody. -/
def HttpRequest.setBody (r : HttpRequest) (s : List Char) : HttpRequest :=
  { r with body := s }

/-- Modelled from the spec: HttpRequest::setReceiveTime. -/
def HttpRequest.setReceiveTime (r : HttpRequest) (t : Nat) : HttpRequest :=
  { r with receiveTime := t }

/-- Modelled from the spec: HttpRequest::setContentLength stores the parsed
integer in the content-length field; the field is a non-negative size_t, so
the C++ int argument goes through the usual conversion modulo 2^64. -/
def HttpRequest.setContentLength (r : HttpRequest) (v : Int) : HttpRequest :=
  { r with contentLength := (v % (18446744073709551616 : Int)).toNat }

/-- Header insertion with overwrite-on-duplicate (spec tie-break policy for
HttpRequest::addHeader). -/
def putHeader : List (List Char × List Char) → List Char → List Char → List (List Char × List Char)
  | [], k, v => [(k, v)]
  | (k0, v0) :: rest, k, v =>
    if k0 = k then (k, v) :: rest else (k0, v0) :: putHeader rest k v

/-- Header lookup; the empty string when the header is absent (the behavior
HttpContext::parseRequest relies on when testing Content-Length emptiness). -/
def lookupHeader : List (List Char × List Char) → List Char → List Char
  | [], _ => []
  | (k0, v0) :: rest, k => if k0 = k then v0 else lookupHeader rest k

/-- Modelled from the spec: HttpRequest::addHeader adds the key/value pair cut
at the first colon of a header line, values untrimmed. -/
def HttpRequest.addHeader (r : HttpRequest) (k v : List Char) : HttpRequest :=
  { r with headers := putHeader r.headers k v }

/-- Modelled from the spec: HttpRequest::getHeader. -/
def HttpRequest.getHeader (r : HttpRequest) (k : List Char) : List Char :=
  lookupHeader r.headers k

/-- Key used by parseRequest to look up the body length. -/
def contentLengthChars : List Char := ("Content-Length").toList

/-- Position of the first CR LF pair, muduo Buffer::findCRLF. -/
def findCRLF : List Char → Option Nat
  | [] => none
  | c :: rest =>
    match rest with
    | [] => none
    | d :: _ =>
      if c = '\r' ∧ d = '\n' then some 0
      else (findCRLF rest).map (fun n => n + 1)

/-- Position of the first occurrence of a character, std::find on a char
range (none when the range ends first). -/
def findChar (c : Char) : List Char → Option Nat
  | [] => none
  | d :: rest => if d = c then some 0 else (findChar c rest).map (fun n => n + 1)

/-- Character class of isspace in the C locale, used by std::stoi. -/
def cppIsSpace (c : Char) : Bool :=
  c = ' ' || c = '\t' || c = '\n' || c = '\x0b' || c = '\x0c' || c = '\r'

/-- Decimal digit test. -/
def isDigitChar (c : Char) : Bool :=
  '0' ≤ c && c ≤ '9'

/-- Value of a digit string. -/
def natOfDigits (l : List Char) : Nat :=
  l.foldl (fun a c => a * 10 + (c.toNat - ('0').toNat)) 0

/-- Behavior of std::stoi: skip leading whitespace, optional sign, then decimal
digits.  none models a thrown exception: std::invalid_argument when no digits
follow, std::out_of_range when the value does not fit in int. -/
def stoi (s : List Char) : Option Int :=
  let s1 := s.dropWhile cppIsSpace
  let signed : Int × List Char :=
    match s1 with
    | '+' :: r => (1, r)
    | '-' :: r => (-1, r)
    | r => (1, r)
  let ds := signed.2.takeWhile isDigitChar
  if ds = [] then none
  else
    let z : Int := signed.1 * (natOfDigits ds : Int)
    if z < -2147483648 ∨ 2147483647 < z then none else some z

/-- Transcription of HttpContext::processRequestLine: split the line at the
first space into method and remainder, at the next space into target and
version, the target at the first question mark into path and query; the
version substring must be exactly 8 characters, begin with the literal
HTTP/1. and end in 0 or 1.  The request is mutated exactly as far as the
source mutates it before a failure. -/
def processRequestLine (line : List Char) (req : HttpRequest) : HttpRequest × Bool :=
  match findChar ' ' line with
  | none => (req, false)
  | some sp1 =>
    match req.setMethod (line.take sp1) with
    | (req1, false) => (req1, false)
    | (req1, true) =>
      let rest1 := line.drop (sp1 + 1)
      match findChar ' ' rest1 with
      | none => (req1, false)
      | some sp2 =>
        let target := rest1.take sp2
        let req2 :=
          match findChar '?' target with
          | some qi => (req1.setPath (target.take qi)).setQueryParameters (target.drop (qi + 1))
          | none => req1.setPath target
        let ver := rest1.drop (sp2 + 1)
        if ver.length = 8 ∧ ver.take 7 = ("HTTP/1.").toList then
          match ver.get? 7 with
          | some '1' => (req2.setVersion (("HTTP/1.1").toList), true)
          | some '0' => (req2.setVersion (("HTTP/1.0").toList), true)
          | _ => (req2, false)
        else (req2, false)

/-- Result of one call to HttpContext::parseRequest: the returned bool together
with the updated context state, request and the bytes left in the buffer, or
thrown for an exception escaping the call (std::stoi on a malformed
Content-Length value). -/
inductive FeedResult
  | ok (b : Bool) (state : ParserState) (request : HttpRequest) (buf : List Char)
  | thrown
deriving DecidableEq, Repr

/-- One iteration of the while loop of HttpContext::parseRequest: inl is a
return from the call (hasMore = false, or the stoi exception), inr continues
the loop with the updated state, request and buffer. -/
def parseStep (state : ParserState) (req : HttpRequest) (buf : List Char) (receiveTime : Nat) :
    FeedResult ⊕ ParserState × HttpRequest × List Char :=
  match state with
  | ParserState.kExpectRequestLine =>
    match findCRLF buf with
    | none => Sum.inl (FeedResult.ok true ParserState.kExpectRequestLine req buf)
    | some i =>
      match processRequestLine (buf.take i) req with
      | (req1, true) =>
        Sum.inr (ParserState.kExpectHeaders, req1.setReceiveTime receiveTime, buf.drop (i + 2))
      | (req1, false) =>
        Sum.inl (FeedResult.ok false ParserState.kExpectRequestLine req1 buf)
  | ParserState.kExpectHeaders =>
    match findCRLF buf with
    | none => Sum.inl (FeedResult.ok true ParserState.kExpectHeaders req buf)
    | some i =>
      match findChar ':' (buf.take i) with
      | some j =>
        Sum.inr (ParserState.kExpectHeaders,
          req.addHeader ((buf.take i).take j) ((buf.take i).drop (j + 1)),
          buf.drop (i + 2))
      | none =>
        if i = 0 then
          if req.method = Method.kPost ∨ req.method = Method.kPut then
            if req.getHeader contentLengthChars = [] then
              Sum.inl (FeedResult.ok false ParserState.kExpectHeaders req (buf.drop 2))
            else
              match stoi (req.getHeader contentLengthChars) with
              | none => Sum.inl FeedResult.thrown
              | some v =>
                if 0 < (req.setContentLength v).contentLength then
                  Sum.inr (ParserState.kExpectBody, req.setContentLength v, buf.drop 2)
                else
                  Sum.inl (FeedResult.ok true ParserState.kGotAll (req.setContentLength v) (buf.drop 2))
          else
            Sum.inl (FeedResult.ok true ParserState.kGotAll req (buf.drop 2))
        else
          Sum.inl (FeedResult.ok false ParserState.kExpectHeaders req (buf.drop (i + 2)))
  | ParserState.kExpectBody =>
    if buf.length < req.contentLength then
      Sum.inl (FeedResult.ok true ParserState.kExpectBody req buf)
    else
      Sum.inl (FeedResult.ok true ParserState.kGotAll
        (req.setBody (buf.take req.contentLength)) (buf.drop req.contentLength))
  | ParserState.kGotAll => Sum.inr (ParserState.kGotAll, req, buf)

/-- The while loop of HttpContext::parseRequest, with fuel: none models the
loop not terminating (which the source loop does only when entered in the
kGotAll state, where no branch of the loop body applies). -/
def parseLoop : Nat → ParserState → HttpRequest → List Char → Nat → Option FeedResult
  | 0, _, _, _, _ => none
  | fuel + 1, state, req, buf, receiveTime =>
    match parseStep state req buf receiveTime with
    | Sum.inl r => some r
    | Sum.inr (state1, req1, buf1) => parseLoop fuel state1 req1 buf1 receiveTime

/-- HttpContext::parseRequest on a context in the given state holding the given
request, with the connection buffer holding buf: run the loop.  Every loop
iteration that continues removes at least two bytes from the buffer, so
length + 1 units of fuel always suffice (proved below); the result is none
exactly when the call was made on an already-complete context, where the
source loop spins forever. -/
def parseRequest (state : ParserState) (req : HttpRequest) (buf : List Char)
    (receiveTime : Nat) : Option FeedResult :=
  parseLoop (buf.length + 1) state req buf receiveTime

/-- A sequence of feed calls: each call appends the newly arrived fragment to
the connection buffer and runs parseRequest with that call's receive
timestamp; the sequence continues only while parseRequest returns true
without throwing (the network layer closes the connection otherwise). -/
def feedAll : ParserState → HttpRequest → List Char → List (List Char × Nat) →
    Option (ParserState × HttpRequest × List Char)
  | state, req, buf, [] => some (state, req, buf)
  | state, req, buf, (frag, t) :: rest =>
    match parseRequest state req (buf ++ frag) t with
    | some (FeedResult.ok true state1 req1 buf1) => feedAll state1 req1 buf1 rest
    | _ => none

/-- Request with the receive timestamp scrubbed: two requests are equal after
eraseTime exactly when they agree on every field the parser's control flow
can read or the claims compare. -/
def HttpRequest.eraseTime (r : HttpRequest) : HttpRequest :=
  { r with receiveTime := 0 }

/-- Feed result with the receive timestamp of the carried request scrubbed. -/
def FeedResult.erase : FeedResult → FeedResult
  | FeedResult.ok b st r buf => FeedResult.ok b st r.eraseTime buf
  | FeedResult.thrown => FeedResult.thrown

/-- The condition under which a parseRequest call stops with hasMore = false
while reporting success and the message still incomplete: no full line is
buffered in the line states, or fewer bytes than content-length in the body
state.  The complete state never stops this way. -/
def Stopped : ParserState → HttpRequest → List Char → Prop
  | ParserState.kExpectRequestLine, _, buf => findCRLF buf = none
  | ParserState.kExpectHeaders, _, buf => findCRLF buf = none
  | ParserState.kExpectBody, req, buf => buf.length < req.contentLength
  | ParserState.kGotAll, _, _ => False

/-- The loop, run with some amount of fuel, returns this result. -/
def Evals (state : ParserState) (req : HttpRequest) (buf : List Char)
    (receiveTime : Nat) (r : FeedResult) : Prop :=
  ∃ fuel, parseLoop fuel state req buf receiveTime = some r

theorem take_append_le {α : Type} (n : Nat) (l r : List α) (h : n ≤ l.length) :
    (l ++ r).take n = l.take n := by
  induction l generalizing n with
  | nil => cases n with
    | zero => simp
    | succ m => simp at h
  | cons a t ih =>
    cases n with
    | zero => simp
    | succ m =>
      simp only [List.cons_append, List.take_succ_cons]
      rw [ih m (by simpa using h)]

theorem drop_append_le {α : Type} (n : Nat) (l r : List α) (h : n ≤ l.length) :
    (l ++ r).drop n = l.drop n ++ r := by
  induction l generalizing n with
  | nil => cases n with
    | zero => simp
    | succ m => simp at h
  | cons a t ih =>
    cases n with
    | zero => simp
    | succ m =>
      simp only [List.cons_append, List.drop_succ_cons]
      exact ih m (by simpa using h)

theorem findCRLF_le {l : List Char} {i : Nat} (h : findCRLF l = some i) : i + 2 ≤ l.length := by
  induction l generalizing i with
  | nil => simp [findCRLF] at h
  | cons c rest ih =>
    cases rest with
    | nil => simp [findCRLF] at h
    | cons d tail =>
      rw [findCRLF] at h
      by_cases hcd : c = '\r' ∧ d = '\n'
      · rw [if_pos hcd] at h
        cases h
        simp only [List.length_cons]
        omega
      · rw [if_neg hcd] at h
        rcases Option.map_eq_some'.mp h with ⟨j, hj, hij⟩
        have := ih hj
        subst hij
        simp only [List.length_cons] at this ⊢
        omega

theorem findCRLF_append {l : List Char} {i : Nat} (ex : List Char)
    (h : findCRLF l = some i) : findCRLF (l ++ ex) = some i := by
  induction l generalizing i with
  | nil => simp [findCRLF] at h
  | cons c rest ih =>
    cases rest with
    | nil => simp [findCRLF] at h
    | cons d tail =>
      rw [findCRLF] at h
      simp only [List.cons_append]
      rw [findCRLF]
      by_cases hcd : c = '\r' ∧ d = '\n'
      · rw [if_pos hcd] at h ⊢
        exact h
      · rw [if_neg hcd] at h ⊢
        rcases Option.map_eq_some'.mp h with ⟨j, hj, hij⟩
        have h2 := ih hj
        simp only [List.cons_append] at h2
        rw [h2]
        simpa using hij

theorem eraseTime_timeShift (r : HttpRequest) (rt : Nat) :
    ({ r with receiveTime := rt } : HttpRequest).eraseTime = r.eraseTime := by
  cases r; rfl

theorem eraseTime_setReceiveTime (r : HttpRequest) (t : Nat) :
    (r.setReceiveTime t).eraseTime = r.eraseTime := by
  cases r; rfl

theorem method_timeShift (r : HttpRequest) (rt : Nat) :
    ({ r with receiveTime := rt } : HttpRequest).method = r.method := by
  cases r; rfl

theorem contentLength_timeShift (r : HttpRequest) (rt : Nat) :
    ({ r with receiveTime := rt } : HttpRequest).contentLength = r.contentLength := by
  cases r; rfl

theorem getHeader_timeShift (r : HttpRequest) (rt : Nat) (k : List Char) :
    ({ r with receiveTime := rt } : HttpRequest).getHeader k = r.getHeader k := by
  cases r; rfl

theorem setContentLength_timeShift (r : HttpRequest) (rt : Nat) (v : Int) :
    ({ r with receiveTime := rt } : HttpRequest).setContentLength v =
      { r.setContentLength v with receiveTime := rt } := by
  cases r; rfl

theorem addHeader_timeShift (r : HttpRequest) (rt : Nat) (k v : List Char) :
    ({ r with receiveTime := rt } : HttpRequest).addHeader k v =
      { r.addHeader k v with receiveTime := rt } := by
  cases r; rfl

theorem setBody_timeShift (r : HttpRequest) (rt : Nat) (s : List Char) :
    ({ r with receiveTime := rt } : HttpRequest).setBody s =
      { r.setBody s with receiveTime := rt } := by
  cases r; rfl

theorem setReceiveTime_timeShift (r : HttpRequest) (rt t : Nat) :
    ({ r with receiveTime := rt } : HttpRequest).setReceiveTime t = r.setReceiveTime t := by
  cases r; rfl

theorem setMethod_timeShift (r : HttpRequest) (rt : Nat) (s : List Char) :
    ({ r with receiveTime := rt } : HttpRequest).setMethod s =
      ({ (r.setMethod s).1 with receiveTime := rt }, (r.setMethod s).2) := by
  cases r; rfl

theorem setPath_timeShift (r : HttpRequest) (rt : Nat) (s : List Char) :
    ({ r with receiveTime := rt } : HttpRequest).setPath s =
      { r.setPath s with receiveTime := rt } := by
  cases r; rfl

theorem setQueryParameters_timeShift (r : HttpRequest) (rt : Nat) (s : List Char) :
    ({ r with receiveTime := rt } : HttpRequest).setQueryParameters s =
      { r.setQueryParameters s with receiveTime := rt } := by
  cases r; rfl

theorem setVersion_timeShift (r : HttpRequest) (rt : Nat) (s : List Char) :
    ({ r with receiveTime := rt } : HttpRequest).setVersion s =
      { r.setVersion s with receiveTime := rt } := by
  cases r; rfl

/-- The parser never reads the receive timestamp: processRequestLine on a
request whose timestamp was changed gives the same outcome with only the
timestamp changed. -/
theorem processRequestLine_timeShift (line : List Char) (r : HttpRequest) (rt : Nat) :
    processRequestLine line { r with receiveTime := rt } =
      ({ (processRequestLine line r).1 with receiveTime := rt },
        (processRequestLine line r).2) := by
  cases r with
  | mk m p q v hs cl b rt0 =>
    simp only [processRequestLine, HttpRequest.setMethod]
    cases h1 : findChar ' ' line with
    | none => rfl
    | some sp1 =>
      dsimp only
      by_cases hm : methodOfChars (line.take sp1) = Method.kInvalid
      · have hb : (methodOfChars (line.take sp1) != Method.kInvalid) = false := by simp [hm]
        rw [hb]
      · have hb : (methodOfChars (line.take sp1) != Method.kInvalid) = true := by simp [hm]
        rw [hb]
        dsimp only
        cases h2 : findChar ' ' (line.drop (sp1 + 1)) with
        | none => simp
        | some sp2 =>
          dsimp only
          split
          · cases h4 : ((line.drop (sp1 + 1)).drop (sp2 + 1)).get? 7 with
            | none =>
              cases h3 : findChar '?' ((line.drop (sp1 + 1)).take sp2) <;>
                simp [HttpRequest.setPath, HttpRequest.setQueryParameters, HttpRequest.setVersion]
            | some c =>
              split <;>
                cases h3 : findChar '?' ((line.drop (sp1 + 1)).take sp2) <;>
                  simp [HttpRequest.setPath, HttpRequest.setQueryParameters, HttpRequest.setVersion]
          · cases h3 : findChar '?' ((line.drop (sp1 + 1)).take sp2) <;>
              simp [HttpRequest.setPath, HttpRequest.setQueryParameters, HttpRequest.setVersion]

/-- Relation between the loop bodies run at different receive timestamps on
requests differing only in their stored timestamp. -/
def StepTimeRel : (FeedResult ⊕ ParserState × HttpRequest × List Char) →
    (FeedResult ⊕ ParserState × HttpRequest × List Char) → Prop
  | Sum.inl r, Sum.inl r' => r.erase = r'.erase
  | Sum.inr (s, q, b), Sum.inr (s', q', b') => s = s' ∧ q.eraseTime = q'.eraseTime ∧ b = b'
  | _, _ => False

theorem parseStep_timeShift (st : ParserState) (req : HttpRequest) (buf : List Char)
    (t t' rt' : Nat) :
    StepTimeRel (parseStep st req buf t) (parseStep st { req with receiveTime := rt' } buf t') := by
  cases st
  case kExpectRequestLine =>
    simp only [parseStep]
    cases hc : findCRLF buf with
    | none =>
      simp [StepTimeRel, FeedResult.erase, HttpRequest.eraseTime]
    | some i =>
      dsimp only
      nth_rewrite 2 [processRequestLine_timeShift]
      cases hpr : processRequestLine (buf.take i) req with
      | mk req1 bb =>
        cases bb with
        | false =>
          simp [StepTimeRel, FeedResult.erase, HttpRequest.eraseTime]
        | true =>
          simp [StepTimeRel, FeedResult.erase, HttpRequest.eraseTime, HttpRequest.setReceiveTime]
  case kExpectHeaders =>
    simp only [parseStep, HttpRequest.getHeader, HttpRequest.setContentLength,
      HttpRequest.addHeader]
    repeat' split
    all_goals simp [StepTimeRel, FeedResult.erase, HttpRequest.eraseTime]
  case kExpectBody =>
    simp only [parseStep, HttpRequest.setBody]
    repeat' split
    all_goals simp [StepTimeRel, FeedResult.erase, HttpRequest.eraseTime]
  case kGotAll =>
    simp [parseStep, StepTimeRel, HttpRequest.eraseTime]

theorem eq_timeShift_of_eraseTime_eq {q q' : HttpRequest} (h : q.eraseTime = q'.eraseTime) :
    q' = { q with receiveTime := q'.receiveTime } := by
  cases q with
  | mk m p qq v hs cl b rt =>
    cases q' with
    | mk m' p' qq' v' hs' cl' b' rt2 =>
      simp only [HttpRequest.eraseTime, HttpRequest.mk.injEq] at h ⊢
      simp_all

/-- The loop ignores the receive timestamp argument and the stored timestamp:
running it at a different timestamp on a request differing only in its stored
timestamp gives the same result up to the stored timestamp. -/
theorem parseLoop_time (fuel : Nat) : ∀ (st : ParserState) (req : HttpRequest) (buf : List Char)
    (t t' rt' : Nat),
    Option.map FeedResult.erase (parseLoop fuel st req buf t) =
      Option.map FeedResult.erase (parseLoop fuel st { req with receiveTime := rt' } buf t') := by
  induction fuel with
  | zero => intro st req buf t t' rt'; rfl
  | succ f ih =>
    intro st req buf t t' rt'
    have hrel := parseStep_timeShift st req buf t t' rt'
    simp only [parseLoop]
    cases h1 : parseStep st req buf t with
    | inl r =>
      cases h2 : parseStep st { req with receiveTime := rt' } buf t' with
      | inl r2 =>
        rw [h1, h2] at hrel
        simp only [StepTimeRel] at hrel
        simpa using hrel
      | inr s2 =>
        rw [h1, h2] at hrel
        simp [StepTimeRel] at hrel
    | inr s1 =>
      cases h2 : parseStep st { req with receiveTime := rt' } buf t' with
      | inl r2 =>
        rw [h1, h2] at hrel
        simp [StepTimeRel] at hrel
      | inr s2 =>
        rw [h1, h2] at hrel
        obtain ⟨st1, q1, b1⟩ := s1
        obtain ⟨st2, q2, b2⟩ := s2
        simp only [StepTimeRel] at hrel
        obtain ⟨hs, hq, hb⟩ := hrel
        subst hs
        subst hb
        rw [eq_timeShift_of_eraseTime_eq hq]
        exact ih st1 q1 b1 t t' q2.receiveTime

/-- A parseRequest call made on an already-complete context never terminates:
the source while loop has no branch for the kGotAll state. -/
theorem parseLoop_gotAll (fuel : Nat) (req : HttpRequest) (buf : List Char) (t : Nat) :
    parseLoop fuel ParserState.kGotAll req buf t = none := by
  induction fuel with
  | zero => rfl
  | succ f ih => simpa [parseLoop, parseStep] using ih

theorem parseLoop_mono {fuel : Nat} : ∀ {st : ParserState} {req : HttpRequest} {buf : List Char}
    {t : Nat} {r : FeedResult}, parseLoop fuel st req buf t = some r →
    parseLoop (fuel + 1) st req buf t = some r := by
  induction fuel with
  | zero => intro st req buf t r h; simp [parseLoop] at h
  | succ f ih =>
    intro st req buf t r h
    rw [parseLoop] at h
    rw [parseLoop]
    cases hs : parseStep st req buf t with
    | inl r0 => rw [hs] at h; exact h
    | inr s =>
      rw [hs] at h
      obtain ⟨st1, q1, b1⟩ := s
      exact ih h

theorem parseLoop_mono_le {fuel g : Nat} (hle : fuel ≤ g) {st : ParserState} {req : HttpRequest}
    {buf : List Char} {t : Nat} {r : FeedResult} (h : parseLoop fuel st req buf t = some r) :
    parseLoop g st req buf t = some r := by
  induction hle with
  | refl => exact h
  | step _ ih => exact parseLoop_mono ih

theorem parseLoop_det {f g : Nat} {st : ParserState} {req : HttpRequest} {buf : List Char}
    {t : Nat} {r r' : FeedResult} (h : parseLoop f st req buf t = some r)
    (h' : parseLoop g st req buf t = some r') : r = r' := by
  rcases Nat.le_total f g with hle | hle
  · have h2 := parseLoop_mono_le hle h
    rw [h2] at h'
    exact Option.some_inj.mp h'
  · have h2 := parseLoop_mono_le hle h'
    rw [h2] at h
    exact (Option.some_inj.mp h).symm

/-- Every loop iteration that continues consumes at least two bytes (a line
together with its CR LF, or the empty line before the body) and never moves
to the complete state. -/
theorem parseStep_inr {st : ParserState} {req : HttpRequest} {buf : List Char} {t : Nat}
    {st1 : ParserState} {q1 : HttpRequest} {b1 : List Char}
    (h : parseStep st req buf t = Sum.inr (st1, q1, b1)) (hst : st ≠ ParserState.kGotAll) :
    st1 ≠ ParserState.kGotAll ∧ b1.length + 2 ≤ buf.length := by
  cases st with
  | kGotAll => exact absurd rfl hst
  | kExpectRequestLine =>
    rw [parseStep] at h
    cases hc : findCRLF buf with
    | none => rw [hc] at h; simp at h
    | some i =>
      rw [hc] at h
      dsimp only at h
      have hle := findCRLF_le hc
      cases hpr : processRequestLine (buf.take i) req with
      | mk req1 bb =>
        rw [hpr] at h
        cases bb with
        | false => simp at h
        | true =>
          simp only [Sum.inr.injEq, Prod.mk.injEq] at h
          obtain ⟨h1, _, h3⟩ := h
          subst h1
          subst h3
          refine ⟨by simp, ?_⟩
          simp only [List.length_drop]
          omega
  | kExpectHeaders =>
    rw [parseStep] at h
    cases hc : findCRLF buf with
    | none => rw [hc] at h; simp at h
    | some i =>
      rw [hc] at h
      dsimp only at h
      have hle := findCRLF_le hc
      cases hj : findChar ':' (buf.take i) with
      | some j =>
        rw [hj] at h
        dsimp only at h
        simp only [Sum.inr.injEq, Prod.mk.injEq] at h
        obtain ⟨h1, _, h3⟩ := h
        subst h1
        subst h3
        refine ⟨by simp, ?_⟩
        simp only [List.length_drop]
        omega
      | none =>
        rw [hj] at h
        dsimp only at h
        by_cases hi : i = 0
        · rw [if_pos hi] at h
          subst hi
          split at h
          · split at h
            · simp at h
            · cases hst2 : stoi (req.getHeader contentLengthChars) with
              | none => rw [hst2] at h; simp at h
              | some v =>
                rw [hst2] at h
                dsimp only at h
                split at h
                · simp only [Sum.inr.injEq, Prod.mk.injEq] at h
                  obtain ⟨h1, _, h3⟩ := h
                  subst h1
                  subst h3
                  refine ⟨by simp, ?_⟩
                  simp only [List.length_drop]
                  omega
                · simp at h
          · simp at h
        · rw [if_neg hi] at h
          simp at h
  | kExpectBody =>
    rw [parseStep] at h
    split at h <;> simp at h

/-- With fuel one more than the buffer length, the loop always returns when
not entered in the complete state. -/
theorem parseLoop_suff : ∀ (n : Nat) (st : ParserState) (req : HttpRequest) (buf : List Char)
    (t : Nat), buf.length ≤ n → st ≠ ParserState.kGotAll →
    ∃ r, parseLoop (buf.length + 1) st req buf t = some r := by
  intro n
  induction n with
  | zero =>
    intro st req buf t hlen hst
    rw [parseLoop]
    cases hs : parseStep st req buf t with
    | inl r => exact ⟨r, rfl⟩
    | inr s =>
      obtain ⟨st1, q1, b1⟩ := s
      have := (parseStep_inr hs hst).2
      omega
  | succ n ih =>
    intro st req buf t hlen hst
    rw [parseLoop]
    cases hs : parseStep st req buf t with
    | inl r => exact ⟨r, rfl⟩
    | inr s =>
      obtain ⟨st1, q1, b1⟩ := s
      obtain ⟨hst1, hlen1⟩ := parseStep_inr hs hst
      obtain ⟨r, hr⟩ := ih st1 q1 b1 t (by omega) hst1
      exact ⟨r, parseLoop_mono_le (by omega) hr⟩

/-- parseRequest always returns when the context is not already complete. -/
theorem parseRequest_some (st : ParserState) (req : HttpRequest) (buf : List Char) (t : Nat)
    (hst : st ≠ ParserState.kGotAll) : ∃ r, parseRequest st req buf t = some r :=
  parseLoop_suff buf.length st req buf t (Nat.le_refl _) hst

theorem evals_of_parseRequest {st : ParserState} {req : HttpRequest} {buf : List Char} {t : Nat}
    {r : FeedResult} (h : parseRequest st req buf t = some r) : Evals st req buf t r :=
  ⟨buf.length + 1, h⟩

theorem parseRequest_of_evals {st : ParserState} {req : HttpRequest} {buf : List Char} {t : Nat}
    {r : FeedResult} (h : Evals st req buf t r) (hst : st ≠ ParserState.kGotAll) :
    parseRequest st req buf t = some r := by
  obtain ⟨f, hf⟩ := h
  obtain ⟨r', hr'⟩ := parseRequest_some st req buf t hst
  have := parseLoop_det hf hr'
  rw [hr', this]

/-- What one loop iteration does after more bytes are appended to the buffer:
a continuing iteration makes the same move with the extra bytes carried along;
an error, an exception or a completion happens identically with the extra
bytes left in the buffer; a need-more-data stop leaves the state untouched
and satisfies the stop condition. -/
def StepApp (st : ParserState) (req : HttpRequest) (buf : List Char) (t : Nat) (ex : List Char) :
    (FeedResult ⊕ ParserState × HttpRequest × List Char) → Prop
  | Sum.inr (st1, q1, b1) => parseStep st req (buf ++ ex) t = Sum.inr (st1, q1, b1 ++ ex)
  | Sum.inl (FeedResult.ok true st1 q1 b1) =>
    if st1 = ParserState.kGotAll then
      parseStep st req (buf ++ ex) t =
        Sum.inl (FeedResult.ok true ParserState.kGotAll q1 (b1 ++ ex))
    else st1 = st ∧ q1 = req ∧ b1 = buf ∧ Stopped st1 q1 b1
  | Sum.inl (FeedResult.ok false st1 q1 b1) =>
    parseStep st req (buf ++ ex) t = Sum.inl (FeedResult.ok false st1 q1 (b1 ++ ex))
  | Sum.inl FeedResult.thrown => parseStep st req (buf ++ ex) t = Sum.inl FeedResult.thrown

theorem parseStep_app (ex : List Char) (st : ParserState) (req : HttpRequest) (buf : List Char)
    (t : Nat) : StepApp st req buf t ex (parseStep st req buf t) := by
  cases st with
  | kGotAll =>
    simp [parseStep, StepApp]
  | kExpectRequestLine =>
    rw [parseStep]
    cases hc : findCRLF buf with
    | none =>
      simp only [StepApp]
      rw [if_neg (by simp)]
      simp [Stopped, hc]
    | some i =>
      dsimp only
      have hle := findCRLF_le hc
      cases hpr : processRequestLine (buf.take i) req with
      | mk q1 bb =>
        cases bb with
        | true =>
          simp only [StepApp]
          rw [parseStep, findCRLF_append ex hc]
          dsimp only
          rw [take_append_le i buf ex (by omega), hpr]
          dsimp only
          rw [drop_append_le (i + 2) buf ex hle]
        | false =>
          simp only [StepApp]
          rw [parseStep, findCRLF_append ex hc]
          dsimp only
          rw [take_append_le i buf ex (by omega), hpr]
  | kExpectHeaders =>
    rw [parseStep]
    cases hc : findCRLF buf with
    | none =>
      simp only [StepApp]
      rw [if_neg (by simp)]
      simp [Stopped, hc]
    | some i =>
      dsimp only
      have hle := findCRLF_le hc
      cases hj : findChar ':' (buf.take i) with
      | some j =>
        simp only [StepApp]
        rw [parseStep, findCRLF_append ex hc]
        dsimp only
        rw [take_append_le i buf ex (by omega), hj]
        dsimp only
        rw [drop_append_le (i + 2) buf ex hle]
      | none =>
        by_cases hi : i = 0
        · rw [if_pos hi]
          subst hi
          by_cases hmp : req.method = Method.kPost ∨ req.method = Method.kPut
          · rw [if_pos hmp]
            by_cases hcl : req.getHeader contentLengthChars = []
            · rw [if_pos hcl]
              simp only [StepApp]
              rw [parseStep, findCRLF_append ex hc]
              dsimp only
              rw [take_append_le 0 buf ex (by omega), hj]
              simp [hmp, hcl, drop_append_le 2 buf ex hle]
            · rw [if_neg hcl]
              cases hstoi : stoi (req.getHeader contentLengthChars) with
              | none =>
                dsimp only
                simp only [StepApp]
                rw [parseStep, findCRLF_append ex hc]
                dsimp only
                rw [take_append_le 0 buf ex (by omega), hj]
                simp [hmp, hcl, hstoi]
              | some v =>
                dsimp only
                by_cases hpos : 0 < (req.setContentLength v).contentLength
                · rw [if_pos hpos]
                  simp only [StepApp]
                  rw [parseStep, findCRLF_append ex hc]
                  dsimp only
                  rw [take_append_le 0 buf ex (by omega), hj]
                  simp [hmp, hcl, hstoi, hpos, drop_append_le 2 buf ex hle]
                · rw [if_neg hpos]
                  simp only [StepApp]
                  rw [if_pos (by trivial)]
                  rw [parseStep, findCRLF_append ex hc]
                  dsimp only
                  rw [take_append_le 0 buf ex (by omega), hj]
                  simp [hmp, hcl, hstoi, hpos, drop_append_le 2 buf ex hle]
          · rw [if_neg hmp]
            simp only [StepApp]
            rw [if_pos (by trivial)]
            rw [parseStep, findCRLF_append ex hc]
            dsimp only
            rw [take_append_le 0 buf ex (by omega), hj]
            simp [hmp, drop_append_le 2 buf ex hle]
        · rw [if_neg hi]
          simp only [StepApp]
          rw [parseStep, findCRLF_append ex hc]
          dsimp only
          rw [take_append_le i buf ex (by omega), hj]
          simp [hi, drop_append_le (i + 2) buf ex hle]
  | kExpectBody =>
    rw [parseStep]
    by_cases hlt : buf.length < req.contentLength
    · rw [if_pos hlt]
      simp only [StepApp]
      rw [if_neg (by simp)]
      simp [Stopped, hlt]
    · rw [if_neg hlt]
      simp only [StepApp]
      rw [if_pos (by trivial)]
      rw [parseStep]
      rw [if_neg (by simp only [List.length_append]; omega)]
      rw [take_append_le req.contentLength buf ex (by omega),
        drop_append_le req.contentLength buf ex (by omega)]

/-- A successful but incomplete parseRequest stop leaves the context exactly
where it was, with the stop condition holding. -/
theorem parseStep_needData {st : ParserState} {req : HttpRequest} {buf : List Char} {t : Nat}
    {st1 : ParserState} {q1 : HttpRequest} {b1 : List Char}
    (h : parseStep st req buf t = Sum.inl (FeedResult.ok true st1 q1 b1))
    (hst1 : st1 ≠ ParserState.kGotAll) :
    st1 = st ∧ q1 = req ∧ b1 = buf ∧ Stopped st1 q1 b1 := by
  have happ := parseStep_app [] st req buf t
  rw [h] at happ
  simp only [StepApp] at happ
  rw [if_neg hst1] at happ
  exact happ

theorem parseLoop_needData : ∀ {f : Nat} {st : ParserState} {req : HttpRequest} {buf : List Char}
    {t : Nat} {st1 : ParserState} {q1 : HttpRequest} {b1 : List Char},
    parseLoop f st req buf t = some (FeedResult.ok true st1 q1 b1) →
    st1 ≠ ParserState.kGotAll → Stopped st1 q1 b1 := by
  intro f
  induction f with
  | zero => intro st req buf t st1 q1 b1 h _; simp [parseLoop] at h
  | succ f ih =>
    intro st req buf t st1 q1 b1 h hst1
    rw [parseLoop] at h
    cases hs : parseStep st req buf t with
    | inl r0 =>
      rw [hs] at h
      dsimp only at h
      have hr := Option.some_inj.mp h
      subst hr
      exact (parseStep_needData hs hst1).2.2.2
    | inr s =>
      rw [hs] at h
      dsimp only at h
      obtain ⟨st', q', b'⟩ := s
      exact ih h hst1

/-- A context satisfying the stop condition makes no progress when fed no new
bytes: the call returns success and changes nothing. -/
theorem parseRequest_stopped {st : ParserState} {req : HttpRequest} {buf : List Char}
    (h : Stopped st req buf) (t : Nat) :
    parseRequest st req buf t = some (FeedResult.ok true st req buf) := by
  cases st with
  | kGotAll => exact absurd h (by simp [Stopped])
  | kExpectRequestLine =>
    rw [parseRequest, parseLoop, parseStep]
    simp only [Stopped] at h
    rw [h]
  | kExpectHeaders =>
    rw [parseRequest, parseLoop, parseStep]
    simp only [Stopped] at h
    rw [h]
  | kExpectBody =>
    rw [parseRequest, parseLoop, parseStep]
    simp only [Stopped] at h
    rw [if_pos h]

/-- Relation between one parseRequest run and the run on the same buffer with
extra bytes appended: a completed, failed or thrown run happens identically
with the extra bytes carried in the leftover buffer; an incomplete successful
run turns every continuation started from its final state into a run of the
appended buffer. -/
def Transfer (st : ParserState) (req : HttpRequest) (buf : List Char) (t : Nat) (ex : List Char) :
    FeedResult → Prop
  | FeedResult.ok true st1 q1 b1 =>
    if st1 = ParserState.kGotAll then
      Evals st req (buf ++ ex) t (FeedResult.ok true ParserState.kGotAll q1 (b1 ++ ex))
    else ∀ r2, Evals st1 q1 (b1 ++ ex) t r2 → Evals st req (buf ++ ex) t r2
  | FeedResult.ok false st1 q1 b1 =>
    Evals st req (buf ++ ex) t (FeedResult.ok false st1 q1 (b1 ++ ex))
  | FeedResult.thrown => Evals st req (buf ++ ex) t FeedResult.thrown

theorem transfer_lift {st : ParserState} {req : HttpRequest} {buf : List Char}
    {st' : ParserState} {q' : HttpRequest} {b' : List Char} {t : Nat} {ex : List Char}
    (hstep : ∀ g, parseLoop (g + 1) st req (buf ++ ex) t = parseLoop g st' q' (b' ++ ex) t)
    {r : FeedResult} (h : Transfer st' q' b' t ex r) : Transfer st req buf t ex r := by
  have lift : ∀ r2, Evals st' q' (b' ++ ex) t r2 → Evals st req (buf ++ ex) t r2 := by
    rintro r2 ⟨g, hg⟩
    exact ⟨g + 1, by rw [hstep g]; exact hg⟩
  cases r with
  | thrown => exact lift _ h
  | ok bb st1 q1 b1 =>
    cases bb with
    | false => exact lift _ h
    | true =>
      simp only [Transfer] at h ⊢
      by_cases h1 : st1 = ParserState.kGotAll
      · rw [if_pos h1] at h ⊢
        exact lift _ h
      · rw [if_neg h1] at h ⊢
        exact fun r2 hr2 => lift _ (h r2 hr2)

/-- Main incrementality lemma: whatever a parseRequest run does, the run on
the buffer extended with more bytes relates to it as described by Transfer. -/
theorem parseLoop_append (ex : List Char) : ∀ (f : Nat) (st : ParserState) (req : HttpRequest)
    (buf : List Char) (t : Nat) (r : FeedResult), parseLoop f st req buf t = some r →
    Transfer st req buf t ex r := by
  intro f
  induction f with
  | zero => intro st req buf t r h; simp [parseLoop] at h
  | succ f ih =>
    intro st req buf t r h
    rw [parseLoop] at h
    cases hs : parseStep st req buf t with
    | inl r0 =>
      rw [hs] at h
      dsimp only at h
      have hr := Option.some_inj.mp h
      subst hr
      have happ := parseStep_app ex st req buf t
      rw [hs] at happ
      cases r0 with
      | thrown =>
        simp only [StepApp] at happ
        exact ⟨1, by rw [parseLoop, happ]⟩
      | ok bb st1 q1 b1 =>
        cases bb with
        | false =>
          simp only [StepApp] at happ
          exact ⟨1, by rw [parseLoop, happ]⟩
        | true =>
          simp only [StepApp] at happ
          simp only [Transfer]
          by_cases h1 : st1 = ParserState.kGotAll
          · rw [if_pos h1] at happ
            rw [if_pos h1]
            exact ⟨1, by rw [parseLoop, happ]⟩
          · rw [if_neg h1] at happ
            rw [if_neg h1]
            obtain ⟨hst, hq, hb, _⟩ := happ
            subst hst
            subst hq
            subst hb
            exact fun r2 hr2 => hr2
    | inr s =>
      rw [hs] at h
      dsimp only at h
      obtain ⟨st', q', b'⟩ := s
      have happ := parseStep_app ex st req buf t
      rw [hs] at happ
      simp only [StepApp] at happ
      have hstep : ∀ g, parseLoop (g + 1) st req (buf ++ ex) t = parseLoop g st' q' (b' ++ ex) t := by
        intro g
        rw [parseLoop, happ]
      exact transfer_lift hstep (ih st' q' b' t r h)

theorem evals_det {st : ParserState} {req : HttpRequest} {buf : List Char} {t : Nat}
    {r r' : FeedResult} (h : Evals st req buf t r) (h' : Evals st req buf t r') : r = r' := by
  obtain ⟨f, hf⟩ := h
  obtain ⟨g, hg⟩ := h'
  exact parseLoop_det hf hg

theorem stopped_ne_gotAll {st : ParserState} {req : HttpRequest} {buf : List Char}
    (h : Stopped st req buf) : st ≠ ParserState.kGotAll := by
  intro heq
  subst heq
  simp [Stopped] at h

theorem erase_inj_shape {x y : FeedResult} (h : x.erase = y.erase) :
    (x = FeedResult.thrown ∧ y = FeedResult.thrown) ∨
      ∃ b st q1 q2 buf, x = FeedResult.ok b st q1 buf ∧ y = FeedResult.ok b st q2 buf ∧
        q1.eraseTime = q2.eraseTime := by
  cases x with
  | thrown =>
    cases y with
    | thrown => exact Or.inl ⟨rfl, rfl⟩
    | ok b' st' q' buf' => simp [FeedResult.erase] at h
  | ok b st q buf =>
    cases y with
    | thrown => simp [FeedResult.erase] at h
    | ok b' st' q' buf' =>
      simp only [FeedResult.erase, FeedResult.ok.injEq] at h
      obtain ⟨hb, hst, hq, hbuf⟩ := h
      subst hb
      subst hst
      subst hbuf
      exact Or.inr ⟨b, st, q, q', buf, rfl, rfl, hq⟩

/-- parseRequest ignores the receive-timestamp argument up to the stored
timestamp of the result. -/
theorem parseRequest_time (st : ParserState) (req : HttpRequest) (buf : List Char) (t t' : Nat) :
    Option.map FeedResult.erase (parseRequest st req buf t) =
      Option.map FeedResult.erase (parseRequest st req buf t') :=
  parseLoop_time (buf.length + 1) st req buf t t' req.receiveTime

/-- parseRequest result depends on the stored timestamp of the request only
through the stored timestamp of the result. -/
theorem parseRequest_req_time {q q' : HttpRequest} (h : q.eraseTime = q'.eraseTime)
    (st : ParserState) (buf : List Char) (t t' : Nat) :
    Option.map FeedResult.erase (parseRequest st q buf t) =
      Option.map FeedResult.erase (parseRequest st q' buf t') := by
  rw [eq_timeShift_of_eraseTime_eq h]
  exact parseLoop_time (buf.length + 1) st q buf t t' q'.receiveTime

/-- Concatenation of the byte fragments of a feed sequence. -/
def joinBytes : List (List Char × Nat) → List Char
  | [] => []
  | (f, _) :: rest => f ++ joinBytes rest

/-- Main induction for fragmented delivery: if the whole remaining message
parses to completion in one call consuming every byte, then feeding it as any
sequence of nonempty fragments with arbitrary receive timestamps reaches the
same completed request up to the receive timestamp, and after every proper
prefix of the feed sequence the parser sits at a need-more-data stop. -/
theorem feedAll_aux : ∀ (ps : List (List Char × Nat)) (st0 : ParserState) (req0 : HttpRequest)
    (buf0 : List Char) (R : HttpRequest) (T : Nat),
    Stopped st0 req0 buf0 →
    parseRequest st0 req0 (buf0 ++ joinBytes ps) T =
      some (FeedResult.ok true ParserState.kGotAll R []) →
    ps ≠ [] → (∀ p ∈ ps, p.1 ≠ []) →
    (∃ R', feedAll st0 req0 buf0 ps = some (ParserState.kGotAll, R', []) ∧
        R'.eraseTime = R.eraseTime) ∧
    (∀ ps1 ps2, ps = ps1 ++ ps2 → ps2 ≠ [] →
        ∃ st' req' buf', feedAll st0 req0 buf0 ps1 = some (st', req', buf') ∧
          Stopped st' req' buf') := by
  intro ps
  induction ps with
  | nil => intro st0 req0 buf0 R T _ _ hne _; exact absurd rfl hne
  | cons hd rest ih =>
    obtain ⟨f1, t1⟩ := hd
    intro st0 req0 buf0 R T hstop0 H hne hfrag
    have hst0 : st0 ≠ ParserState.kGotAll := stopped_ne_gotAll hstop0
    rw [joinBytes, ← List.append_assoc] at H
    have HEv : Evals st0 req0 ((buf0 ++ f1) ++ joinBytes rest) T
        (FeedResult.ok true ParserState.kGotAll R []) := evals_of_parseRequest H
    obtain ⟨r1T, hr1T⟩ := parseRequest_some st0 req0 (buf0 ++ f1) T hst0
    have htr := parseLoop_append (joinBytes rest) ((buf0 ++ f1).length + 1)
      st0 req0 (buf0 ++ f1) T r1T hr1T
    cases r1T with
    | thrown =>
      have := evals_det htr HEv
      simp at this
    | ok bb st1 q1 b1 =>
      cases bb with
      | false =>
        simp only [Transfer] at htr
        have := evals_det htr HEv
        simp at this
      | true =>
        simp only [Transfer] at htr
        by_cases hgot : st1 = ParserState.kGotAll
        · subst hgot
          rw [if_pos rfl] at htr
          have hdet := evals_det htr HEv
          simp only [FeedResult.ok.injEq, List.append_eq_nil] at hdet
          have hq1R : q1 = R := hdet.2.2.1
          have hb1 : b1 = [] := hdet.2.2.2.1
          have hjr : joinBytes rest = [] := hdet.2.2.2.2
          cases rest with
          | cons p l =>
            exfalso
            have hp := hfrag p (by simp)
            rw [joinBytes] at hjr
            exact hp (List.append_eq_nil.mp hjr).1
          | nil =>
            subst hb1
            subst hq1R
            have hmap := parseRequest_time st0 req0 (buf0 ++ f1) t1 T
            rw [hr1T] at hmap
            cases hr1 : parseRequest st0 req0 (buf0 ++ f1) t1 with
            | none => rw [hr1] at hmap; simp at hmap
            | some x =>
              rw [hr1] at hmap
              simp only [Option.map_some'] at hmap
              rcases erase_inj_shape (Option.some_inj.mp hmap) with
                ⟨hx, hy⟩ | ⟨b2, st2, qA, qB, buf2, hx, hy, hqe⟩
              · simp at hy
              · injection hy with hb2 hst2 hqB hbuf2
                subst hb2
                subst hst2
                subst hbuf2
                subst hqB
                subst hx
                constructor
                · refine ⟨qA, ?_, hqe⟩
                  rw [feedAll, hr1]
                  rfl
                · intro ps1 ps2 hsplit hps2
                  cases ps1 with
                  | nil => exact ⟨st0, req0, buf0, rfl, hstop0⟩
                  | cons a l1 =>
                    exfalso
                    simp only [List.cons_append, List.cons.injEq] at hsplit
                    rcases List.append_eq_nil.mp hsplit.2.symm with ⟨_, hps2nil⟩
                    exact hps2 hps2nil
        · rw [if_neg hgot] at htr
          have hstopT : Stopped st1 q1 b1 := parseLoop_needData hr1T hgot
          cases rest with
          | nil =>
            exfalso
            have hnp := parseRequest_stopped hstopT T
            have hb1e : b1 ++ joinBytes ([] : List (List Char × Nat)) = b1 := by
              simp [joinBytes]
            have hEv1 : Evals st1 q1 (b1 ++ joinBytes ([] : List (List Char × Nat))) T
                (FeedResult.ok true st1 q1 b1) := by
              rw [hb1e]
              exact evals_of_parseRequest hnp
            have hdet := evals_det (htr _ hEv1) HEv
            injection hdet with _ hsteq _ _
            exact hgot hsteq
          | cons p l =>
            obtain ⟨r2, hr2⟩ := parseRequest_some st1 q1 (b1 ++ joinBytes (p :: l)) T hgot
            have hr2c := evals_det (htr _ (evals_of_parseRequest hr2)) HEv
            subst hr2c
            have hmap := parseRequest_time st0 req0 (buf0 ++ f1) t1 T
            rw [hr1T] at hmap
            cases hr1 : parseRequest st0 req0 (buf0 ++ f1) t1 with
            | none => rw [hr1] at hmap; simp at hmap
            | some x =>
              rw [hr1] at hmap
              simp only [Option.map_some'] at hmap
              rcases erase_inj_shape (Option.some_inj.mp hmap) with
                ⟨hx, hy⟩ | ⟨b2, st2, qA, qB, buf2, hx, hy, hqe⟩
              · simp at hy
              · injection hy with hb2 hst2 hqB hbuf2
                subst hb2
                subst hst2
                subst hbuf2
                subst hqB
                subst hx
                have hstop1 : Stopped st1 qA b1 := parseLoop_needData hr1 hgot
                have hmap2 := parseRequest_req_time hqe.symm st1
                  (b1 ++ joinBytes (p :: l)) T T
                rw [hr2] at hmap2
                cases hr2q : parseRequest st1 qA (b1 ++ joinBytes (p :: l)) T with
                | none => rw [hr2q] at hmap2; simp at hmap2
                | some x2 =>
                  rw [hr2q] at hmap2
                  simp only [Option.map_some'] at hmap2
                  rcases erase_inj_shape (Option.some_inj.mp hmap2) with
                    ⟨hx2, hy2⟩ | ⟨b4, st4, qC, qD, buf4, hx2, hy2, hqe2⟩
                  · simp at hx2
                  · injection hx2 with hb4 hst4 hqC hbuf4
                    subst hb4
                    subst hst4
                    subst hbuf4
                    subst hqC
                    subst hy2
                    obtain ⟨⟨R1, hfeedR, hR1e⟩, hstops⟩ := ih st1 qA b1 qD T hstop1 hr2q
                      (by simp) (fun p2 hp2 => hfrag p2 (by simp [hp2]))
                    constructor
                    · refine ⟨R1, ?_, ?_⟩
                      · rw [feedAll, hr1]
                        exact hfeedR
                      · rw [hR1e, ← hqe2]
                    · intro ps1 ps2 hsplit hps2
                      cases ps1 with
                      | nil => exact ⟨st0, req0, buf0, rfl, hstop0⟩
                      | cons a l1 =>
                        simp only [List.cons_append, List.cons.injEq] at hsplit
                        obtain ⟨ha, hsplit2⟩ := hsplit
                        subst ha
                        obtain ⟨st3, req3, buf3, hfeed3, hstop3⟩ := hstops l1 ps2 hsplit2 hps2
                        refine ⟨st3, req3, buf3, ?_, hstop3⟩
                        rw [feedAll, hr1]
                        exact hfeed3

theorem eraseTime_fields {q q' : HttpRequest} (h : q.eraseTime = q'.eraseTime) :
    q.method = q'.method ∧ q.path = q'.path ∧ q.queryParameters = q'.queryParameters ∧
      q.version = q'.version ∧ q.headers = q'.headers ∧ q.contentLength = q'.contentLength ∧
      q.body = q'.body := by
  cases q
  cases q'
  simp only [HttpRequest.eraseTime, HttpRequest.mk.injEq] at h
  simp_all

/-- C1: for every valid GET request (request line, headers, no body, parsed to
completion by a single feed call that consumes every byte) and every way of
splitting its bytes into nonempty fragments delivered by successive feed
calls at arbitrary receive timestamps, the final parsed request agrees with
the single-call parse on method, path, query parameters, version and headers,
and after every feed call but the last the parser sits at a state from which
feeding no new bytes changes nothing (each call made maximal progress). -/
theorem feed_fragmentation_invariant (m : List Char) (R : HttpRequest)
    (ps : List (List Char × Nat))
    (hvalid : parseRequest ParserState.kExpectRequestLine {} m 0 =
      some (FeedResult.ok true ParserState.kGotAll R []))
    (hget : R.method = Method.kGet)
    (hjoin : joinBytes ps = m)
    (hne : ps ≠ [])
    (hfrag : ∀ p ∈ ps, p.1 ≠ []) :
    (∃ R', feedAll ParserState.kExpectRequestLine {} [] ps =
        some (ParserState.kGotAll, R', []) ∧
      R'.method = R.method ∧ R'.path = R.path ∧ R'.queryParameters = R.queryParameters ∧
      R'.version = R.version ∧ R'.headers = R.headers) ∧
    (∀ ps1 ps2, ps = ps1 ++ ps2 → ps2 ≠ [] →
      ∃ st' req' buf',
        feedAll ParserState.kExpectRequestLine {} [] ps1 = some (st', req', buf') ∧
        ∀ t2, parseRequest st' req' buf' t2 = some (FeedResult.ok true st' req' buf')) := by
  have hstop0 : Stopped ParserState.kExpectRequestLine ({} : HttpRequest) [] := by
    simp [Stopped, findCRLF]
  have H : parseRequest ParserState.kExpectRequestLine {} ([] ++ joinBytes ps) 0 =
      some (FeedResult.ok true ParserState.kGotAll R []) := by
    rw [List.nil_append, hjoin]
    exact hvalid
  obtain ⟨⟨R', hfeed, hRe⟩, hstops⟩ :=
    feedAll_aux ps ParserState.kExpectRequestLine {} [] R 0 hstop0 H hne hfrag
  constructor
  · obtain ⟨h1, h2, h3, h4, h5, _, _⟩ := eraseTime_fields hRe
    exact ⟨R', hfeed, h1, h2, h3, h4, h5⟩
  · intro ps1 ps2 hsplit hps2
    obtain ⟨st', req', buf', hfeed', hstop'⟩ := hstops ps1 ps2 hsplit hps2
    exact ⟨st', req', buf', hfeed', fun t2 => parseRequest_stopped hstop' t2⟩

/-- Concrete message used to witness the fragmentation theorem. -/
def wMsgC1 : List Char := ("GET /a?x=1 HTTP/1.1\r\nHost: h\r\n\r\n").toList

/-- Concrete fragmentation of wMsgC1, split mid-version-token, with two
different receive timestamps. -/
def wFragsC1 : List (List Char × Nat) :=
  [(("GET /a?x=1 HTT").toList, 3), (("P/1.1\r\nHost: h\r\n\r\n").toList, 9)]

/-- Parse result of wMsgC1 in a single call at timestamp 0. -/
def wReqC1 : HttpRequest :=
  { method := Method.kGet, path := ("/a").toList, queryParameters := ("x=1").toList,
    version := ("HTTP/1.1").toList, headers := [(("Host").toList, (" h").toList)],
    contentLength := 0, body := [], receiveTime := 0 }

theorem feed_fragmentation_invariant_witness :
    (parseRequest ParserState.kExpectRequestLine {} wMsgC1 0 =
      some (FeedResult.ok true ParserState.kGotAll wReqC1 [])) ∧
    wReqC1.method = Method.kGet ∧ joinBytes wFragsC1 = wMsgC1 ∧ wFragsC1 ≠ [] ∧
    (∀ p ∈ wFragsC1, p.1 ≠ []) ∧
    ((∃ R', feedAll ParserState.kExpectRequestLine {} [] wFragsC1 =
        some (ParserState.kGotAll, R', []) ∧
      R'.method = wReqC1.method ∧ R'.path = wReqC1.path ∧
      R'.queryParameters = wReqC1.queryParameters ∧
      R'.version = wReqC1.version ∧ R'.headers = wReqC1.headers) ∧
    (∀ ps1 ps2, wFragsC1 = ps1 ++ ps2 → ps2 ≠ [] →
      ∃ st' req' buf',
        feedAll ParserState.kExpectRequestLine {} [] ps1 = some (st', req', buf') ∧
        ∀ t2, parseRequest st' req' buf' t2 = some (FeedResult.ok true st' req' buf'))) :=
  ⟨by decide, by decide, by decide, by decide, by decide,
    feed_fragmentation_invariant wMsgC1 wReqC1 wFragsC1 (by decide) (by decide) (by decide)
      (by decide) (by decide)⟩

/-- One returning loop iteration determines the call result. -/
theorem parseRequest_step_inl {st : ParserState} {req : HttpRequest} {buf : List Char} {t : Nat}
    {r : FeedResult} (h : parseStep st req buf t = Sum.inl r) :
    parseRequest st req buf t = some r := by
  rw [parseRequest, parseLoop, h]

/-- A continuing loop iteration followed by a returning call determines the
call result. -/
theorem parseRequest_step_inr {st : ParserState} {req : HttpRequest} {buf : List Char} {t : Nat}
    {st1 : ParserState} {q1 : HttpRequest} {b1 : List Char} {r : FeedResult}
    (h : parseStep st req buf t = Sum.inr (st1, q1, b1)) (hst : st ≠ ParserState.kGotAll)
    (h1 : parseRequest st1 q1 b1 t = some r) :
    parseRequest st req buf t = some r := by
  have hEv : Evals st req buf t r := by
    obtain ⟨f, hf⟩ := evals_of_parseRequest h1
    exact ⟨f + 1, by rw [parseLoop, h]; exact hf⟩
  exact parseRequest_of_evals hEv hst

/-- C2 (code defect): on a POST request whose Content-Length value has no
digits, the std::stoi call at the end of the header section throws
std::invalid_argument; the exception escapes parseRequest uncaught, so the
feed call returns neither false nor true — contrary to the documented
contract that a syntax error is reported by returning false. -/
theorem contentLength_nonNumeric_throws :
    parseRequest ParserState.kExpectRequestLine {}
      (("POST /x HTTP/1.1\r\nContent-Length: abc\r\n\r\n").toList) 0 =
      some FeedResult.thrown ∧
    stoi ((" abc").toList) = none := by
  constructor
  · decide
  · decide

/-- Head-section step of parseRequest for a POST or PUT request whose header
section ends now: the empty line is consumed and the Content-Length header
decides what happens. -/
theorem parseStep_headerEnd (req : HttpRequest) (rest : List Char) (t : Nat) (z : Int)
    (hmp : req.method = Method.kPost ∨ req.method = Method.kPut)
    (hcl : req.getHeader contentLengthChars ≠ [])
    (hstoi : stoi (req.getHeader contentLengthChars) = some z) :
    parseStep ParserState.kExpectHeaders req ('\r' :: '\n' :: rest) t =
      (if 0 < (req.setContentLength z).contentLength then
        Sum.inr (ParserState.kExpectBody, req.setContentLength z, rest)
      else
        Sum.inl (FeedResult.ok true ParserState.kGotAll (req.setContentLength z) rest)) := by
  rw [parseStep]
  have hcr : findCRLF ('\r' :: '\n' :: rest) = some 0 := rfl
  rw [hcr]
  dsimp only
  rw [if_pos hmp, if_neg hcl, hstoi]
  simp [findChar]

/-- C3: with a parsed Content-Length stored as n at the end of the header
section of a POST or PUT request: n = 0 completes the message at once with
the body untouched; n positive moves the parser to the body-expecting state
(observable whenever fewer than n body bytes are buffered); a feed call in
the body state with fewer than n buffered bytes changes nothing and returns
true; once at least n bytes are buffered, exactly n bytes are consumed as the
body and the state becomes complete. -/
theorem post_body_state_machine :
    (∀ (req : HttpRequest) (rest : List Char) (t : Nat) (z : Int),
      (req.method = Method.kPost ∨ req.method = Method.kPut) →
      req.getHeader contentLengthChars ≠ [] →
      stoi (req.getHeader contentLengthChars) = some z →
      (req.setContentLength z).contentLength = 0 →
      parseRequest ParserState.kExpectHeaders req ('\r' :: '\n' :: rest) t =
        some (FeedResult.ok true ParserState.kGotAll (req.setContentLength z) rest) ∧
      (req.setContentLength z).body = req.body) ∧
    (∀ (req : HttpRequest) (rest : List Char) (t : Nat) (z : Int),
      (req.method = Method.kPost ∨ req.method = Method.kPut) →
      req.getHeader contentLengthChars ≠ [] →
      stoi (req.getHeader contentLengthChars) = some z →
      0 < (req.setContentLength z).contentLength →
      rest.length < (req.setContentLength z).contentLength →
      parseRequest ParserState.kExpectHeaders req ('\r' :: '\n' :: rest) t =
        some (FeedResult.ok true ParserState.kExpectBody (req.setContentLength z) rest)) ∧
    (∀ (req : HttpRequest) (buf : List Char) (t : Nat),
      buf.length < req.contentLength →
      parseRequest ParserState.kExpectBody req buf t =
        some (FeedResult.ok true ParserState.kExpectBody req buf)) ∧
    (∀ (req : HttpRequest) (buf : List Char) (t : Nat),
      req.contentLength ≤ buf.length →
      parseRequest ParserState.kExpectBody req buf t =
        some (FeedResult.ok true ParserState.kGotAll
          (req.setBody (buf.take req.contentLength)) (buf.drop req.contentLength)) ∧
      (req.setBody (buf.take req.contentLength)).body.length = req.contentLength) := by
  refine ⟨?_, ?_, ?_, ?_⟩
  · intro req rest t z hmp hcl hstoi hzero
    constructor
    · apply parseRequest_step_inl
      rw [parseStep_headerEnd req rest t z hmp hcl hstoi]
      rw [if_neg (by omega)]
    · simp [HttpRequest.setContentLength]
  · intro req rest t z hmp hcl hstoi hpos hlt
    have hstep : parseStep ParserState.kExpectHeaders req ('\r' :: '\n' :: rest) t =
        Sum.inr (ParserState.kExpectBody, req.setContentLength z, rest) := by
      rw [parseStep_headerEnd req rest t z hmp hcl hstoi]
      rw [if_pos hpos]
    apply parseRequest_step_inr hstep (by simp)
    apply parseRequest_step_inl
    rw [parseStep]
    rw [if_pos hlt]
  · intro req buf t hlt
    apply parseRequest_step_inl
    rw [parseStep]
    rw [if_pos hlt]
  · intro req buf t hge
    constructor
    · apply parseRequest_step_inl
      rw [parseStep]
      rw [if_neg (by omega)]
    · simp [HttpRequest.setBody]
      omega

/-- Concrete POST request state used to witness the body state machine. -/
def wReqC3 : HttpRequest :=
  { method := Method.kPost, headers := [(("Content-Length").toList, ("0").toList)] }

theorem post_body_state_machine_witness :
    ((wReqC3.method = Method.kPost ∨ wReqC3.method = Method.kPut) ∧
      wReqC3.getHeader contentLengthChars ≠ [] ∧
      stoi (wReqC3.getHeader contentLengthChars) = some 0 ∧
      (wReqC3.setContentLength 0).contentLength = 0) ∧
    parseRequest ParserState.kExpectHeaders wReqC3 ('\r' :: '\n' :: ("xy").toList) 5 =
      some (FeedResult.ok true ParserState.kGotAll (wReqC3.setContentLength 0)
        (("xy").toList)) ∧
    parseRequest ParserState.kExpectBody ({ contentLength := 5 } : HttpRequest)
      (("abc").toList) 7 =
      some (FeedResult.ok true ParserState.kExpectBody ({ contentLength := 5 } : HttpRequest)
        (("abc").toList)) ∧
    parseRequest ParserState.kExpectBody ({ contentLength := 2 } : HttpRequest)
      (("abcd").toList) 7 =
      some (FeedResult.ok true ParserState.kGotAll
        (({ contentLength := 2 } : HttpRequest).setBody (("ab").toList)) (("cd").toList)) :=
  ⟨⟨Or.inl (by decide), by decide, by decide, by decide⟩,
    (post_body_state_machine.1 wReqC3 (("xy").toList) 5 0 (Or.inl (by decide)) (by decide)
      (by decide) (by decide)).1,
    post_body_state_machine.2.2.1 ({ contentLength := 5 } : HttpRequest) (("abc").toList) 7
      (by decide),
    by
      have h := (post_body_state_machine.2.2.2 ({ contentLength := 2 } : HttpRequest)
        (("abcd").toList) 7 (by decide)).1
      simpa using h⟩

theorem takeLen_append {α : Type} (l r : List α) : (l ++ r).take l.length = l := by
  induction l with
  | nil => simp
  | cons a t ih => simp [ih]

theorem dropLen_append_cons {α : Type} (l : List α) (a : α) (r : List α) :
    (l ++ a :: r).drop (l.length + 1) = r := by
  induction l with
  | nil => simp
  | cons b t ih => simpa using ih

theorem findChar_at {c : Char} {l : List Char} (h : c ∉ l) (r : List Char) :
    findChar c (l ++ c :: r) = some l.length := by
  induction l with
  | nil => simp [findChar]
  | cons a t ih =>
    have ha : a ≠ c := fun hac => h (by simp [hac])
    have ht : c ∉ t := fun htc => h (by simp [htc])
    rw [List.cons_append, findChar, if_neg ha, ih ht]
    rfl

theorem findCRLF_boundary {line : List Char} (h : '\r' ∉ line) (rest : List Char) :
    findCRLF (line ++ '\r' :: '\n' :: rest) = some line.length := by
  induction line with
  | nil => rfl
  | cons c l ih =>
    have hc : c ≠ '\r' := fun hcr => h (by simp [hcr])
    have hl : '\r' ∉ l := fun hlr => h (by simp [hlr])
    rw [List.cons_append]
    cases he : l ++ '\r' :: '\n' :: rest with
    | nil => simp at he
    | cons d l2 =>
      have hrec : findCRLF (d :: l2) = some l.length := by
        rw [← he]
        exact ih hl
      rw [findCRLF, if_neg (fun hand => hc hand.1), hrec]
      rfl

/-- C4: in a request line whose method token is recognized and which splits at
its first two spaces into method, target and version substring, the version
substring is accepted exactly when it is 8 characters long, starts with the
7-character literal HTTP/1. and ends in 0 or 1, producing version HTTP/1.0 or
HTTP/1.1; and when it is rejected, the feed call carrying that request line
returns false. -/
theorem requestLine_version_check (m tgt v : List Char) (req : HttpRequest)
    (hm : ' ' ∉ m) (htgt : ' ' ∉ tgt)
    (hmethod : methodOfChars m ≠ Method.kInvalid) :
    ((processRequestLine (m ++ ' ' :: (tgt ++ ' ' :: v)) req).2 = true ↔
      (v.length = 8 ∧ v.take 7 = ("HTTP/1.").toList ∧
        (v.get? 7 = some '0' ∨ v.get? 7 = some '1'))) ∧
    (v.length = 8 → v.take 7 = ("HTTP/1.").toList → v.get? 7 = some '1' →
      (processRequestLine (m ++ ' ' :: (tgt ++ ' ' :: v)) req).1.version =
        ("HTTP/1.1").toList) ∧
    (v.length = 8 → v.take 7 = ("HTTP/1.").toList → v.get? 7 = some '0' →
      (processRequestLine (m ++ ' ' :: (tgt ++ ' ' :: v)) req).1.version =
        ("HTTP/1.0").toList) ∧
    ((processRequestLine (m ++ ' ' :: (tgt ++ ' ' :: v)) req).2 = false →
      ∀ (rest : List Char) (t : Nat), '\r' ∉ (m ++ ' ' :: (tgt ++ ' ' :: v)) →
      parseRequest ParserState.kExpectRequestLine req
        ((m ++ ' ' :: (tgt ++ ' ' :: v)) ++ '\r' :: '\n' :: rest) t =
        some (FeedResult.ok false ParserState.kExpectRequestLine
          (processRequestLine (m ++ ' ' :: (tgt ++ ' ' :: v)) req).1
          ((m ++ ' ' :: (tgt ++ ' ' :: v)) ++ '\r' :: '\n' :: rest))) := by
  have hunf : processRequestLine (m ++ ' ' :: (tgt ++ ' ' :: v)) req =
      (if v.length = 8 ∧ v.take 7 = ("HTTP/1.").toList then
        match v.get? 7 with
        | some '1' =>
          ((match findChar '?' tgt with
            | some qi =>
              (({ req with method := methodOfChars m }).setPath (tgt.take qi)).setQueryParameters
                (tgt.drop (qi + 1))
            | none => ({ req with method := methodOfChars m }).setPath tgt).setVersion
              (("HTTP/1.1").toList), true)
        | some '0' =>
          ((match findChar '?' tgt with
            | some qi =>
              (({ req with method := methodOfChars m }).setPath (tgt.take qi)).setQueryParameters
                (tgt.drop (qi + 1))
            | none => ({ req with method := methodOfChars m }).setPath tgt).setVersion
              (("HTTP/1.0").toList), true)
        | _ =>
          (match findChar '?' tgt with
            | some qi =>
              (({ req with method := methodOfChars m }).setPath (tgt.take qi)).setQueryParameters
                (tgt.drop (qi + 1))
            | none => ({ req with method := methodOfChars m }).setPath tgt, false)
      else
        (match findChar '?' tgt with
          | some qi =>
            (({ req with method := methodOfChars m }).setPath (tgt.take qi)).setQueryParameters
              (tgt.drop (qi + 1))
          | none => ({ req with method := methodOfChars m }).setPath tgt, false)) := by
    simp only [processRequestLine, HttpRequest.setMethod]
    rw [findChar_at hm]
    dsimp only
    rw [takeLen_append]
    have hb : (methodOfChars m != Method.kInvalid) = true := by simpa using hmethod
    rw [hb]
    dsimp only
    rw [dropLen_append_cons, findChar_at htgt]
    dsimp only
    rw [takeLen_append, dropLen_append_cons]
  refine ⟨?_, ?_, ?_, ?_⟩
  · rw [hunf]
    by_cases h8 : v.length = 8 ∧ v.take 7 = ("HTTP/1.").toList
    · rw [if_pos h8]
      cases hgv : v.get? 7 with
      | none =>
        have : 7 < v.length := by omega
        rw [List.get?_eq_get this] at hgv
        simp at hgv
      | some c =>
        by_cases hc1 : c = '1'
        · subst hc1
          simp [h8, hgv]
        · by_cases hc0 : c = '0'
          · subst hc0
            simp [h8, hgv]
          · constructor
            · intro htrue
              exfalso
              revert htrue
              split <;> simp_all
            · intro ⟨_, _, hor⟩
              rcases hor with h0 | h1
              · exact absurd (Option.some_inj.mp h0) hc0
              · exact absurd (Option.some_inj.mp h1) hc1
    · rw [if_neg h8]
      constructor
      · intro hfalse; simp at hfalse
      · intro ⟨ha, hb2, _⟩; exact absurd ⟨ha, hb2⟩ h8
  · intro h8 h7 hge
    rw [hunf, if_pos ⟨h8, h7⟩, hge]
    simp [HttpRequest.setVersion]
  · intro h8 h7 hge
    rw [hunf, if_pos ⟨h8, h7⟩, hge]
    simp [HttpRequest.setVersion]
  · intro hfail rest t hnr
    apply parseRequest_step_inl
    rw [parseStep, findCRLF_boundary hnr]
    dsimp only
    rw [takeLen_append]
    cases hpr : processRequestLine (m ++ ' ' :: (tgt ++ ' ' :: v)) req with
    | mk q1 bb =>
      rw [hpr] at hfail
      simp only at hfail
      subst hfail
      rfl

theorem requestLine_version_check_witness :
    (' ' ∉ (("GET").toList)) ∧ (' ' ∉ (("/i").toList)) ∧
    methodOfChars (("GET").toList) ≠ Method.kInvalid ∧
    (processRequestLine ((("GET").toList) ++ ' ' :: ((("/i").toList) ++ ' ' ::
      (("HTTP/1.1").toList))) ({} : HttpRequest)).2 = true :=
  ⟨by decide, by decide, by decide,
    (requestLine_version_check (("GET").toList) (("/i").toList) (("HTTP/1.1").toList) {}
      (by decide) (by decide) (by decide)).1.mpr (by decide)⟩

/-- processRequestLine writes only the method, path, query and version fields:
content-length and body pass through untouched. -/
theorem processRequestLine_fields (line : List Char) (r : HttpRequest) :
    (processRequestLine line r).1.contentLength = r.contentLength ∧
    (processRequestLine line r).1.body = r.body := by
  cases r with
  | mk m p q v hs cl b rt =>
    simp only [processRequestLine, HttpRequest.setMethod]
    cases h1 : findChar ' ' line with
    | none => exact ⟨rfl, rfl⟩
    | some sp1 =>
      dsimp only
      by_cases hmv : methodOfChars (line.take sp1) = Method.kInvalid
      · have hb : (methodOfChars (line.take sp1) != Method.kInvalid) = false := by simp [hmv]
        rw [hb]
        exact ⟨rfl, rfl⟩
      · have hb : (methodOfChars (line.take sp1) != Method.kInvalid) = true := by simp [hmv]
        rw [hb]
        dsimp only
        cases h2 : findChar ' ' (line.drop (sp1 + 1)) with
        | none => exact ⟨rfl, rfl⟩
        | some sp2 =>
          dsimp only
          split
          · cases h4 : ((line.drop (sp1 + 1)).drop (sp2 + 1)).get? 7 with
            | none =>
              cases h3 : findChar '?' ((line.drop (sp1 + 1)).take sp2) <;>
                simp [HttpRequest.setPath, HttpRequest.setQueryParameters, HttpRequest.setVersion]
            | some c =>
              split <;>
                cases h3 : findChar '?' ((line.drop (sp1 + 1)).take sp2) <;>
                  simp [HttpRequest.setPath, HttpRequest.setQueryParameters, HttpRequest.setVersion]
          · cases h3 : findChar '?' ((line.drop (sp1 + 1)).take sp2) <;>
              simp [HttpRequest.setPath, HttpRequest.setQueryParameters, HttpRequest.setVersion]

/-- Loop iterations that complete the message produce a request whose stored
content-length equals its stored body length, assuming the line states carry
the freshly-initialized zero content-length and empty body. -/
theorem parseStep_complete_cl {st : ParserState} {req : HttpRequest} {buf : List Char} {t : Nat}
    {R : HttpRequest} {rem : List Char}
    (hs : parseStep st req buf t = Sum.inl (FeedResult.ok true ParserState.kGotAll R rem))
    (hinv : (st = ParserState.kExpectRequestLine ∨ st = ParserState.kExpectHeaders) →
      req.contentLength = 0 ∧ req.body = []) :
    R.contentLength = R.body.length := by
  cases st with
  | kGotAll => rw [parseStep] at hs; simp at hs
  | kExpectRequestLine =>
    rw [parseStep] at hs
    cases hc : findCRLF buf with
    | none => rw [hc] at hs; simp at hs
    | some i =>
      rw [hc] at hs
      dsimp only at hs
      cases hpr : processRequestLine (buf.take i) req with
      | mk q1 bb =>
        rw [hpr] at hs
        cases bb <;> simp at hs
  | kExpectBody =>
    rw [parseStep] at hs
    by_cases hlt : buf.length < req.contentLength
    · rw [if_pos hlt] at hs
      simp at hs
    · rw [if_neg hlt] at hs
      simp only [Sum.inl.injEq, FeedResult.ok.injEq] at hs
      obtain ⟨_, _, hR, _⟩ := hs
      subst hR
      simp only [HttpRequest.setBody, List.length_take]
      omega
  | kExpectHeaders =>
    rw [parseStep] at hs
    cases hc : findCRLF buf with
    | none => rw [hc] at hs; simp at hs
    | some i =>
      rw [hc] at hs
      dsimp only at hs
      cases hj : findChar ':' (buf.take i) with
      | some j => rw [hj] at hs; simp at hs
      | none =>
        rw [hj] at hs
        dsimp only at hs
        by_cases hi : i = 0
        · rw [if_pos hi] at hs
          split at hs
          · split at hs
            · simp at hs
            · cases hstoi : stoi (req.getHeader contentLengthChars) with
              | none => rw [hstoi] at hs; simp at hs
              | some v =>
                rw [hstoi] at hs
                dsimp only at hs
                split at hs
                · simp at hs
                · rename_i hmp hcl hpos
                  simp only [Sum.inl.injEq, FeedResult.ok.injEq] at hs
                  obtain ⟨_, _, hR, _⟩ := hs
                  subst hR
                  have hb0 := (hinv (Or.inr rfl)).2
                  have hcl0 : (req.setContentLength v).contentLength = 0 := by omega
                  rw [hcl0]
                  simp [HttpRequest.setContentLength, hb0]
          · simp only [Sum.inl.injEq, FeedResult.ok.injEq] at hs
            obtain ⟨_, _, hR, _⟩ := hs
            subst hR
            have h0 := hinv (Or.inr rfl)
            rw [h0.1, h0.2]
            rfl
        · rw [if_neg hi] at hs
          simp at hs

/-- Loop iterations that continue in a line state keep the zero content-length
and empty body. -/
theorem parseStep_inr_cl {st : ParserState} {req : HttpRequest} {buf : List Char} {t : Nat}
    {st1 : ParserState} {q1 : HttpRequest} {b1 : List Char}
    (hs : parseStep st req buf t = Sum.inr (st1, q1, b1))
    (hinv : (st = ParserState.kExpectRequestLine ∨ st = ParserState.kExpectHeaders) →
      req.contentLength = 0 ∧ req.body = [])
    (hst1 : st1 = ParserState.kExpectRequestLine ∨ st1 = ParserState.kExpectHeaders) :
    q1.contentLength = 0 ∧ q1.body = [] := by
  cases st with
  | kGotAll =>
    rw [parseStep] at hs
    simp only [Sum.inr.injEq, Prod.mk.injEq] at hs
    obtain ⟨h1, _, _⟩ := hs
    rw [← h1] at hst1
    rcases hst1 with h | h <;> simp at h
  | kExpectBody =>
    rw [parseStep] at hs
    split at hs <;> simp at hs
  | kExpectRequestLine =>
    rw [parseStep] at hs
    cases hc : findCRLF buf with
    | none => rw [hc] at hs; simp at hs
    | some i =>
      rw [hc] at hs
      dsimp only at hs
      cases hpr : processRequestLine (buf.take i) req with
      | mk qr bb =>
        rw [hpr] at hs
        cases bb with
        | false => simp at hs
        | true =>
          simp only [Sum.inr.injEq, Prod.mk.injEq] at hs
          obtain ⟨_, hq, _⟩ := hs
          subst hq
          have hf := processRequestLine_fields (buf.take i) req
          rw [hpr] at hf
          have h0 := hinv (Or.inl rfl)
          have hf2 : qr.contentLength = req.contentLength ∧ qr.body = req.body := by
            simpa using hf
          constructor
          · simp [HttpRequest.setReceiveTime, hf2.1, h0.1]
          · simp [HttpRequest.setReceiveTime, hf2.2, h0.2]
  | kExpectHeaders =>
    rw [parseStep] at hs
    cases hc : findCRLF buf with
    | none => rw [hc] at hs; simp at hs
    | some i =>
      rw [hc] at hs
      dsimp only at hs
      cases hj : findChar ':' (buf.take i) with
      | some j =>
        rw [hj] at hs
        simp only [Sum.inr.injEq, Prod.mk.injEq] at hs
        obtain ⟨_, hq, _⟩ := hs
        subst hq
        have h0 := hinv (Or.inr rfl)
        constructor
        · simpa [HttpRequest.addHeader] using h0.1
        · simpa [HttpRequest.addHeader] using h0.2
      | none =>
        rw [hj] at hs
        dsimp only at hs
        by_cases hi : i = 0
        · rw [if_pos hi] at hs
          split at hs
          · split at hs
            · simp at hs
            · cases hstoi : stoi (req.getHeader contentLengthChars) with
              | none => rw [hstoi] at hs; simp at hs
              | some v =>
                rw [hstoi] at hs
                dsimp only at hs
                split at hs
                · simp only [Sum.inr.injEq, Prod.mk.injEq] at hs
                  obtain ⟨h1, _, _⟩ := hs
                  rw [← h1] at hst1
                  rcases hst1 with h | h <;> simp at h
                · simp at hs
          · simp at hs
        · rw [if_neg hi] at hs
          simp at hs

theorem parseLoop_cl : ∀ (f : Nat) (st : ParserState) (req : HttpRequest) (buf : List Char)
    (t : Nat) (R : HttpRequest) (rem : List Char),
    parseLoop f st req buf t = some (FeedResult.ok true ParserState.kGotAll R rem) →
    ((st = ParserState.kExpectRequestLine ∨ st = ParserState.kExpectHeaders) →
      req.contentLength = 0 ∧ req.body = []) →
    R.contentLength = R.body.length := by
  intro f
  induction f with
  | zero => intro st req buf t R rem h _; simp [parseLoop] at h
  | succ f ih =>
    intro st req buf t R rem h hinv
    rw [parseLoop] at h
    cases hs : parseStep st req buf t with
    | inl r0 =>
      rw [hs] at h
      dsimp only at h
      have hr := Option.some_inj.mp h
      subst hr
      exact parseStep_complete_cl hs hinv
    | inr s =>
      rw [hs] at h
      dsimp only at h
      obtain ⟨st1, q1, b1⟩ := s
      exact ih st1 q1 b1 t R rem h (fun hst1 => parseStep_inr_cl hs hinv hst1)

/-- C5: every parse started on a fresh context that reaches the complete state
has its content-length field equal to the length of the stored body, and the
body-consuming step removes exactly content-length bytes from the stream. -/
theorem contentLength_eq_body_length :
    (∀ (m : List Char) (t : Nat) (R : HttpRequest) (rem : List Char),
      parseRequest ParserState.kExpectRequestLine {} m t =
        some (FeedResult.ok true ParserState.kGotAll R rem) →
      R.contentLength = R.body.length) ∧
    (∀ (req : HttpRequest) (buf : List Char) (t : Nat),
      req.contentLength ≤ buf.length →
      parseRequest ParserState.kExpectBody req buf t =
        some (FeedResult.ok true ParserState.kGotAll
          (req.setBody (buf.take req.contentLength)) (buf.drop req.contentLength)) ∧
      buf.length - (buf.drop req.contentLength).length = req.contentLength) := by
  constructor
  · intro m t R rem h
    exact parseLoop_cl (m.length + 1) ParserState.kExpectRequestLine {} m t R rem h
      (fun _ => ⟨rfl, rfl⟩)
  · intro req buf t hge
    constructor
    · apply parseRequest_step_inl
      rw [parseStep, if_neg (by omega)]
    · simp only [List.length_drop]
      omega

/-- Concrete completed POST parse used to witness the content-length claim. -/
def wReqC5 : HttpRequest :=
  { method := Method.kPost, path := ("/x").toList, queryParameters := [],
    version := ("HTTP/1.1").toList,
    headers := [(("Content-Length").toList, (" 5").toList)],
    contentLength := 5, body := ("hello").toList, receiveTime := 7 }

theorem contentLength_eq_body_length_witness :
    (parseRequest ParserState.kExpectRequestLine {}
        (("POST /x HTTP/1.1\r\nContent-Length: 5\r\n\r\nhello").toList) 7 =
      some (FeedResult.ok true ParserState.kGotAll wReqC5 [])) ∧
    wReqC5.contentLength = wReqC5.body.length :=
  ⟨by decide,
    contentLength_eq_body_length.1
      (("POST /x HTTP/1.1\r\nContent-Length: 5\r\n\r\nhello").toList) 7 wReqC5 []
      (by decide)⟩

namespace db

/-- State of DbConnectionPool: the initialized flag, the stored configuration
and the idle connection queue (std::queue, front at the list head);
connections are modelled by identifiers. -/
structure DbConnectionPool where
  initialized : Bool := false
  host : String := ""
  user : String := ""
  password : String := ""
  database : String := ""
  connections : List Nat := []
deriving DecidableEq, Repr

/-- Transcription of DbConnectionPool::init: a second call on an
already-initialized pool returns immediately without touching anything;
otherwise the configuration is stored, poolSize fresh connections are pushed
into the queue, and the initialized flag is set. -/
def DbConnectionPool.init (p : DbConnectionPool) (host user password database : String)
    (poolSize : Nat) : DbConnectionPool :=
  if p.initialized then p
  else
    { initialized := true, host := host, user := user, password := password,
      database := database, connections := p.connections ++ List.range poolSize }

/-- Outcome of the lock-free health check of getConnection on the acquired
connection: ping succeeds, ping reports a dead connection that reconnect
revives, or ping or reconnect throws (DbConnection is an external
collaborator, so the outcome is an oracle input; the string is the thrown
error). -/
inductive HealthEvent
  | pingOk
  | pingFalseReconnectOk
  | pingFalseReconnectThrows (e : String)
  | pingThrows (e : String)
deriving DecidableEq, Repr

/-- Result of the try block around ping and reconnect. -/
def pingReconnect : HealthEvent → Except String Unit
  | HealthEvent.pingOk => Except.ok ()
  | HealthEvent.pingFalseReconnectOk => Except.ok ()
  | HealthEvent.pingFalseReconnectThrows e => Except.error e
  | HealthEvent.pingThrows e => Except.error e

/-- Outcome of the waiting loop of getConnection. -/
inductive WaitOutcome
  | notInit
  | blocked
  | got (c : Nat) (rest : List Nat)
deriving DecidableEq, Repr

/-- The while loop of getConnection: at each check of the queue (on entry and
after each wake-up from the condition variable) a nonempty queue yields its
front, an empty queue on an uninitialized pool throws DbException, and an
empty queue on an initialized pool waits for the next wake-up.  The argument
lists the queue contents observed at each check; an exhausted list means the
caller is still blocked inside cv_.wait. -/
def waitLoop (initialized : Bool) : List (List Nat) → WaitOutcome
  | [] => WaitOutcome.blocked
  | q :: wakes =>
    match q with
    | [] => if initialized then waitLoop initialized wakes else WaitOutcome.notInit
    | c :: rest => WaitOutcome.got c rest

/-- Result of one getConnection call: the thrown not-initialized exception, a
still-blocked wait, a handed-out lease, or a rethrown health-check error.  A
lease or a failure carries the resulting idle queue and how many waiters
notify_one woke before the call finished. -/
inductive AcquireResult
  | notInitialized
  | blocked
  | leased (conn : Nat) (idleAfter : List Nat) (notifies : Nat)
  | failed (e : String) (idleAfter : List Nat) (notifies : Nat)
deriving DecidableEq, Repr

/-- Transcription of DbConnectionPool::getConnection: run the waiting loop
over the entry queue and the queues observed at wake-ups; pop the obtained
connection; check it outside the lock; on a ping or reconnect exception push
the connection back into the queue, wake one waiter and rethrow. -/
def getConnection (p : DbConnectionPool) (wakes : List (List Nat)) (h : HealthEvent) :
    AcquireResult :=
  match waitLoop p.initialized (p.connections :: wakes) with
  | WaitOutcome.notInit => AcquireResult.notInitialized
  | WaitOutcome.blocked => AcquireResult.blocked
  | WaitOutcome.got c rest =>
    match pingReconnect h with
    | Except.ok _ => AcquireResult.leased c rest 0
    | Except.error e => AcquireResult.failed e (rest ++ [c]) 1

/-- Release logic of the Lease (the custom shared_ptr deleter of
getConnection): push the connection back into the queue and wake exactly one
waiter. -/
def releaseConnection (idle : List Nat) (c : Nat) : List Nat × Nat :=
  (idle ++ [c], 1)

/-- Inversion of the faulty-health acquire path. -/
theorem getConnection_failed_inv {c : Nat} {rest : List Nat} {h : HealthEvent} {e : String}
    {q : List Nat} {n : Nat}
    (hg : getConnection { initialized := true, connections := c :: rest } [] h =
      AcquireResult.failed e q n) :
    q = rest ++ [c] ∧ n = 1 ∧ pingReconnect h = Except.error e := by
  rw [getConnection] at hg
  cases hp : pingReconnect h with
  | ok u => rw [hp] at hg; simp [waitLoop] at hg
  | error e2 =>
    rw [hp] at hg
    simp only [waitLoop] at hg
    simp only [AcquireResult.failed.injEq] at hg
    exact ⟨hg.2.1.symm, hg.2.2.symm, by rw [hg.1]⟩


/-- Reachable idle-queue and outstanding-lease configurations of a pool
initialized with K connections, under successful acquires, acquires whose
health check throws, Lease releases, and background health-check cycles
(checkConnections copies the queue and pings the copies: membership never
changes). -/
inductive Reach (K : Nat) : List Nat → List Nat → Prop
  | start : Reach K (List.range K) []
  | acquireOk {c : Nat} {rest l : List Nat} {h : HealthEvent} {n : Nat} :
      Reach K (c :: rest) l →
      getConnection { initialized := true, connections := c :: rest } [] h =
        AcquireResult.leased c rest n →
      Reach K rest (c :: l)
  | acquireFail {c : Nat} {rest l q : List Nat} {h : HealthEvent} {e : String} {n : Nat} :
      Reach K (c :: rest) l →
      getConnection { initialized := true, connections := c :: rest } [] h =
        AcquireResult.failed e q n →
      Reach K q l
  | release {idle l1 l2 : List Nat} {c : Nat} :
      Reach K idle (l1 ++ c :: l2) →
      Reach K (releaseConnection idle c).1 (l1 ++ l2)
  | healthCycle {idle l : List Nat} : Reach K idle l → Reach K idle l

theorem reach_perm {K : Nat} {idle leased : List Nat} (h : Reach K idle leased) :
    (idle ++ leased).Perm (List.range K) := by
  induction h with
  | start => simp
  | acquireOk hre hget ih => exact List.perm_middle.trans ih
  | acquireFail hre hget ih =>
    have hq := (getConnection_failed_inv hget).1
    subst hq
    refine List.Perm.trans ?_ ih
    refine List.Perm.append_right _ ?_
    exact List.perm_append_singleton _ _
  | release hre ih =>
    refine List.Perm.trans ?_ ih
    simp only [releaseConnection, List.append_assoc, List.singleton_append]
    exact List.Perm.append_left _ List.perm_middle.symm
  | healthCycle hre ih => exact ih

/-- C6: whenever the acquired connection's liveness check or reconnect throws,
getConnection rethrows that same error to the caller, but only after pushing
the connection back into the idle queue and waking exactly one waiting
acquirer — the queue keeps exactly the same connections, so none is lost from
the pool's bookkeeping. -/
theorem acquire_error_returns_connection (p : DbConnectionPool) (c : Nat) (rest : List Nat)
    (wakes : List (List Nat)) (e : String) (hev : HealthEvent)
    (hconn : p.connections = c :: rest)
    (herr : pingReconnect hev = Except.error e) :
    getConnection p wakes hev = AcquireResult.failed e (rest ++ [c]) 1 ∧
    (rest ++ [c]).Perm p.connections := by
  constructor
  · rw [getConnection, hconn]
    simp only [waitLoop]
    rw [herr]
  · rw [hconn]
    exact List.perm_append_singleton c rest

theorem acquire_error_returns_connection_witness :
    ({ initialized := true, connections := [4, 7] } : DbConnectionPool).connections = 4 :: [7] ∧
    pingReconnect (HealthEvent.pingThrows ("boom")) = Except.error ("boom") ∧
    (getConnection { initialized := true, connections := [4, 7] } []
        (HealthEvent.pingThrows ("boom")) = AcquireResult.failed ("boom") [7, 4] 1 ∧
      ([7] ++ [4]).Perm ([4, 7] : List Nat)) :=
  ⟨rfl, rfl,
    acquire_error_returns_connection { initialized := true, connections := [4, 7] } 4 [7] []
      ("boom") (HealthEvent.pingThrows ("boom")) rfl rfl⟩

theorem waitLoop_blocked : ∀ (qs : List (List Nat)), (∀ q ∈ qs, q = []) →
    waitLoop true qs = WaitOutcome.blocked := by
  intro qs
  induction qs with
  | nil => intro _; rfl
  | cons q rest ih =>
    intro hall
    have hq : q = [] := hall q (by simp)
    subst hq
    rw [waitLoop]
    exact ih (fun q2 hq2 => hall q2 (by simp [hq2]))

theorem waitLoop_skip : ∀ (wakes1 : List (List Nat)) (c : Nat) (rest : List Nat)
    (wakes2 : List (List Nat)), (∀ q ∈ wakes1, q = []) →
    waitLoop true (wakes1 ++ (c :: rest) :: wakes2) = WaitOutcome.got c rest := by
  intro wakes1
  induction wakes1 with
  | nil => intro c rest wakes2 _; rfl
  | cons q tl ih =>
    intro c rest wakes2 hall
    have hq : q = [] := hall q (by simp)
    subst hq
    rw [List.cons_append, waitLoop]
    exact ih c rest wakes2 (fun q2 hq2 => hall q2 (by simp [hq2]))

theorem waitLoop_true_ne_notInit : ∀ (qs : List (List Nat)),
    waitLoop true qs ≠ WaitOutcome.notInit := by
  intro qs
  induction qs with
  | nil => simp [waitLoop]
  | cons q rest ih =>
    cases q with
    | nil => rw [waitLoop]; exact ih
    | cons c cs => simp [waitLoop]

/-- C7: a getConnection call on a pool that was never initialized (so its
queue is empty) throws the not-initialized exception at the very first check,
consuming no wake-ups; on an initialized pool the call re-checks the
queue-empty condition at every wake-up and stays blocked while every observed
queue is empty, takes the queue front immediately when one is present, and
proceeds from the first wake-up that observes a nonempty queue. -/
theorem acquire_uninit_fails_else_blocks :
    (∀ (p : DbConnectionPool) (wakes : List (List Nat)) (hev : HealthEvent),
      p.initialized = false → p.connections = [] →
      getConnection p wakes hev = AcquireResult.notInitialized) ∧
    (∀ (p : DbConnectionPool) (wakes : List (List Nat)) (hev : HealthEvent),
      p.initialized = true → (∀ q ∈ p.connections :: wakes, q = []) →
      getConnection p wakes hev = AcquireResult.blocked) ∧
    (∀ (p : DbConnectionPool) (wakes : List (List Nat)) (hev : HealthEvent) (c : Nat)
      (rest : List Nat),
      p.initialized = true → p.connections = c :: rest → pingReconnect hev = Except.ok () →
      getConnection p wakes hev = AcquireResult.leased c rest 0) ∧
    (∀ (p : DbConnectionPool) (wakes1 : List (List Nat)) (c : Nat) (rest : List Nat)
      (wakes2 : List (List Nat)) (hev : HealthEvent),
      p.initialized = true → p.connections = [] → (∀ q ∈ wakes1, q = []) →
      pingReconnect hev = Except.ok () →
      getConnection p (wakes1 ++ (c :: rest) :: wakes2) hev =
        AcquireResult.leased c rest 0) := by
  refine ⟨?_, ?_, ?_, ?_⟩
  · intro p wakes hev hinit hconn
    rw [getConnection, hconn, hinit]
    rfl
  · intro p wakes hev hinit hall
    rw [getConnection, hinit, waitLoop_blocked _ hall]
  · intro p wakes hev c rest hinit hconn hok
    rw [getConnection, hconn, hinit]
    simp only [waitLoop]
    rw [hok]
  · intro p wakes1 c rest wakes2 hev hinit hconn hall hok
    rw [getConnection, hconn, hinit]
    have hw : waitLoop true (([] : List Nat) :: (wakes1 ++ (c :: rest) :: wakes2)) =
        WaitOutcome.got c rest := by
      rw [waitLoop]
      exact waitLoop_skip wakes1 c rest wakes2 hall
    rw [hw, hok]

theorem acquire_uninit_fails_else_blocks_witness :
    (({} : DbConnectionPool).initialized = false ∧ ({} : DbConnectionPool).connections = [] ∧
      getConnection {} [[], []] HealthEvent.pingOk = AcquireResult.notInitialized) ∧
    (({ initialized := true } : DbConnectionPool).initialized = true ∧
      getConnection { initialized := true } [[], []] HealthEvent.pingOk =
        AcquireResult.blocked) ∧
    getConnection { initialized := true, connections := [5] } [] HealthEvent.pingOk =
      AcquireResult.leased 5 [] 0 ∧
    getConnection { initialized := true } [[], (3 :: [8]), [9]] HealthEvent.pingOk =
      AcquireResult.leased 3 [8] 0 :=
  ⟨⟨rfl, rfl, acquire_uninit_fails_else_blocks.1 {} [[], []] HealthEvent.pingOk rfl rfl⟩,
    ⟨rfl, acquire_uninit_fails_else_blocks.2.1 { initialized := true } [[], []]
      HealthEvent.pingOk rfl (by decide)⟩,
    acquire_uninit_fails_else_blocks.2.2.1 { initialized := true, connections := [5] } []
      HealthEvent.pingOk 5 [] rfl rfl rfl,
    acquire_uninit_fails_else_blocks.2.2.2 { initialized := true } [[]] 3 [8] [[9]]
      HealthEvent.pingOk rfl rfl (by decide) rfl⟩

/-- C8: in every reachable configuration of a pool initialized with K
connections, the idle queue and the outstanding leases partition the original
K connections: together they are a permutation of them, their sizes sum to
the fixed capacity K, no two outstanding leases reference the same
connection, every connection is idle or leased but never both, and no
connection from outside the original K ever appears. -/
theorem pool_partition_invariant {K : Nat} {idle leased : List Nat}
    (h : Reach K idle leased) :
    (idle ++ leased).Perm (List.range K) ∧
    idle.length + leased.length = K ∧
    leased.Nodup ∧
    (∀ c, c < K → (c ∈ idle ↔ c ∉ leased)) ∧
    (∀ c, c ∈ idle ∨ c ∈ leased → c < K) := by
  have hperm := reach_perm h
  have hnodup : (idle ++ leased).Nodup := hperm.symm.nodup (List.nodup_range K)
  obtain ⟨hni, hnl, hdisj⟩ := List.nodup_append.mp hnodup
  have hmem : ∀ c, c ∈ idle ++ leased ↔ c < K := by
    intro c
    rw [hperm.mem_iff, List.mem_range]
  refine ⟨hperm, ?_, hnl, ?_, ?_⟩
  · have := hperm.length_eq
    simpa using this
  · intro c hc
    constructor
    · intro hci hcl
      exact hdisj hci hcl
    · intro hcl
      have := (hmem c).mpr hc
      rcases List.mem_append.mp this with hci | hcl2
      · exact hci
      · exact absurd hcl2 hcl
  · intro c hc
    refine (hmem c).mp ?_
    rcases hc with hci | hcl
    · exact List.mem_append.mpr (Or.inl hci)
    · exact List.mem_append.mpr (Or.inr hcl)

theorem pool_partition_invariant_witness :
    (([1, 0] ++ []).Perm (List.range 2) ∧
      ([1, 0] : List Nat).length + ([] : List Nat).length = 2 ∧
      ([] : List Nat).Nodup ∧
      (∀ c, c < 2 → (c ∈ ([1, 0] : List Nat) ↔ c ∉ ([] : List Nat))) ∧
      (∀ c, c ∈ ([1, 0] : List Nat) ∨ c ∈ ([] : List Nat) → c < 2)) :=
  by
  have h1 : Reach 2 [1] ([] ++ 0 :: []) :=
    Reach.acquireOk (Reach.start (K := 2)) (h := HealthEvent.pingOk) rfl
  have h2 := Reach.release h1
  exact pool_partition_invariant (show Reach 2 [1, 0] [] from h2)

/-- C9: DbConnectionPool::init is idempotent: a second call on an
already-initialized pool, with the same or different arguments, is a silent
no-op, leaving the stored configuration and the connection count unchanged. -/
theorem init_idempotent (p : DbConnectionPool) (host user password database : String)
    (poolSize : Nat) (h : p.initialized = true) :
    p.init host user password database poolSize = p ∧
    (p.init host user password database poolSize).host = p.host ∧
    (p.init host user password database poolSize).user = p.user ∧
    (p.init host user password database poolSize).password = p.password ∧
    (p.init host user password database poolSize).database = p.database ∧
    (p.init host user password database poolSize).connections.length =
      p.connections.length := by
  have he : p.init host user password database poolSize = p := by
    rw [DbConnectionPool.init, if_pos h]
  exact ⟨he, by rw [he], by rw [he], by rw [he], by rw [he], by rw [he]⟩

/-- Concrete initialized pool used to witness init idempotence. -/
def wPoolC9 : DbConnectionPool :=
  { initialized := true, host := ("h1"), connections := [0] }

theorem init_idempotent_witness :
    wPoolC9.initialized = true ∧
    wPoolC9.init ("h2") ("u2") ("w2") ("d2") 9 = wPoolC9 :=
  ⟨rfl, (init_idempotent wPoolC9 ("h2") ("u2") ("w2") ("d2") 9 rfl).1⟩

/-- C10 (implicit behavior): init with poolSize 0 marks the pool initialized
with an empty idle queue; a later getConnection then waits on the condition
variable indefinitely while every wake-up still observes an empty queue,
rather than throwing: the not-initialized exception is thrown only when the
initialized flag is false, so an initialized-but-empty pool blocks acquirers
until some connection is released. -/
theorem init_zero_marks_initialized_then_blocks :
    (∀ (host user password database : String),
      (DbConnectionPool.init {} host user password database 0).initialized = true ∧
      (DbConnectionPool.init {} host user password database 0).connections = []) ∧
    (∀ (host user password database : String) (wakes : List (List Nat)) (hev : HealthEvent),
      (∀ q ∈ wakes, q = []) →
      getConnection (DbConnectionPool.init {} host user password database 0) wakes hev =
        AcquireResult.blocked) ∧
    (∀ (p : DbConnectionPool) (wakes : List (List Nat)) (hev : HealthEvent),
      getConnection p wakes hev = AcquireResult.notInitialized → p.initialized = false) := by
  have hinit : ∀ (host user password database : String),
      DbConnectionPool.init {} host user password database 0 =
        { initialized := true, host := host, user := user, password := password,
          database := database, connections := [] } := by
    intro host user password database
    rw [DbConnectionPool.init, if_neg (by simp)]
    simp [List.range_zero]
  refine ⟨?_, ?_, ?_⟩
  · intro host user password database
    rw [hinit]
    exact ⟨rfl, rfl⟩
  · intro host user password database wakes hev hall
    rw [hinit, getConnection]
    have hw : waitLoop true (([] : List Nat) :: wakes) = WaitOutcome.blocked := by
      rw [waitLoop]
      exact waitLoop_blocked wakes hall
    rw [hw]
  · intro p wakes hev hres
    rw [getConnection] at hres
    cases hb : p.initialized with
    | false => rfl
    | true =>
      exfalso
      rw [hb] at hres
      cases hw : waitLoop true (p.connections :: wakes) with
      | notInit => exact waitLoop_true_ne_notInit _ hw
      | blocked => rw [hw] at hres; simp at hres
      | got c rest =>
        rw [hw] at hres
        cases hp : pingReconnect hev with
        | ok u => rw [hp] at hres; simp at hres
        | error e => rw [hp] at hres; simp at hres

theorem init_zero_marks_initialized_then_blocks_witness :
    ((DbConnectionPool.init {} ("h") ("u") ("w") ("d") 0).initialized = true ∧
      (DbConnectionPool.init {} ("h") ("u") ("w") ("d") 0).connections = []) ∧
    getConnection (DbConnectionPool.init {} ("h") ("u") ("w") ("d") 0) [[], []]
      HealthEvent.pingOk = AcquireResult.blocked ∧
    (getConnection { initialized := true, connections := [3] } [] HealthEvent.pingOk =
        AcquireResult.notInitialized → False) :=
  ⟨init_zero_marks_initialized_then_blocks.1 ("h") ("u") ("w") ("d"),
    init_zero_marks_initialized_then_blocks.2.1 ("h") ("u") ("w") ("d") [[], []]
      HealthEvent.pingOk (by decide),
    fun hres => by
      have := init_zero_marks_initialized_then_blocks.2.2
        { initialized := true, connections := [3] } [] HealthEvent.pingOk hres
      simp at this⟩

end db

end Http

